import Mathlib

/-!
Verification of the `bito-pro` computational core (`polmst.py`, `models.py`).

The Python code is shallowly embedded: Python `float` becomes `ℚ` (the
structure files carry decimal literals, and every comparison the code makes
is against decimal constants, so exact rational arithmetic is faithful on
the inputs considered; square-root comparisons are modelled by comparing
squared quantities, which is equivalent since `sqrt` is monotone on
nonnegative reals), Python `dict` becomes an insertion-ordered association
list with first-match lookup and update-in-place semantics, and a raised
exception becomes an `Except` error value.

A point that matters repeatedly below: `mers` dictionaries are keyed by
Python `str` objects (the residue name), while each `Mer.bond_count`
dictionary is keyed by `Mer` objects.  `Mer.__eq__` begins with
`isinstance(other, Mer)` and returns `False` otherwise, and `str.__eq__`
returns `NotImplemented` on a `Mer`, so under Python dict lookup a `Mer`
probe never matches a `str` key even when the underlying names coincide.
The two kinds of keys are therefore embedded as distinct constructors of
`PyKey`, whose decidable equality coincides with Python's `==` on these
values.
-/

/-- Dictionary key as used by the Python code: either a `str`, or a `Mer`
object (a `Mer` is identified by its `name`, since `Mer.__eq__` and
`Mer.__hash__` use only `self.name`).  Equality of `PyKey` matches Python
`==`: two strs compare by contents, two Mers compare by name, and a str
never equals a Mer (the `isinstance` guard in `Mer.__eq__`). -/
inductive PyKey where
  | pstr (s : String)
  | pmer (name : String)
deriving DecidableEq, Repr

/-- Python dict lookup (`d[k]` / `d.get(k)`): first entry with an equal key. -/
def dictGet? {α β : Type} [DecidableEq α] : List (α × β) → α → Option β
  | [], _ => none
  | (k', v) :: t, k => if k' = k then some v else dictGet? t k

/-- Python `d.get(k, dflt)`. -/
def dictGetD {α β : Type} [DecidableEq α] (d : List (α × β)) (k : α) (dflt : β) : β :=
  (dictGet? d k).getD dflt

/-- Python dict assignment `d[k] = v`: an existing key keeps its position and
gets the new value, a new key is appended (insertion order). -/
def dictSet {α β : Type} [DecidableEq α] : List (α × β) → α → β → List (α × β)
  | [], k, v => [(k, v)]
  | (k', v') :: t, k, v => if k' = k then (k', v) :: t else (k', v') :: dictSet t k v

/-- Python `k in d`. -/
def dictContains {α β : Type} [DecidableEq α] (d : List (α × β)) (k : α) : Bool :=
  (dictGet? d k).isSome

/-- Python `d.keys()` (insertion order). -/
def dictKeys {α β : Type} (d : List (α × β)) : List α :=
  d.map Prod.fst

/-- Python `d.values()` (insertion order). -/
def dictValues {α β : Type} (d : List (α × β)) : List β :=
  d.map Prod.snd

/-- Location from `models.py`: three coordinates. -/
structure Location where
  x : ℚ
  y : ℚ
  z : ℚ
deriving DecidableEq, Repr, Inhabited

/-- Squared Euclidean distance between two locations.  `Location.distance_to`
and `Mer.is_bonded_to` compute the square root and compare it against a
nonnegative constant `c`; since squaring is monotone on nonnegatives this is
equivalent to comparing this squared distance against `c * c`, which keeps
the embedding inside exact rational arithmetic. -/
def Location.distSq (a b : Location) : ℚ :=
  (a.x - b.x) * (a.x - b.x) + (a.y - b.y) * (a.y - b.y) + (a.z - b.z) * (a.z - b.z)

/-- Atom from `models.py`. -/
structure Atom where
  atom_id : Int
  name : String
  type : String
  charge : String
  location : Location
  temp_factor : ℚ
deriving DecidableEq, Repr, Inhabited

/-- Mer (residue) from `models.py`.  `bond_count` is a Python dict keyed by
`Mer` objects (comment in the source notwithstanding), embedded as `PyKey`
keys built with `PyKey.pmer`. -/
structure Mer where
  name : String
  type : String
  mer_id : Int
  chain : String
  atoms : List Atom
  bond_count : List (PyKey × Nat)
  center_of_mass : Location
deriving DecidableEq, Repr, Inhabited

/-- Residue mapping as produced by `parse_atoms`: a Python dict from the
derived residue key (a `str`) to the `Mer` object. -/
abbrev Mers := List (PyKey × Mer)

/-- Interaction from `models.py`.  The class sets `from_mer`, `to_mer` and
`affinity` in `__init__` and nothing else ever assigns to it: in particular
it has no `weight` attribute (although `sum_weights_along_path` and the
viewer pages read `interaction.weight`). -/
structure Interaction where
  from_mer : String
  to_mer : String
  affinity : ℚ
deriving DecidableEq, Repr, Inhabited

/-- Python `str.strip()` restricted to ASCII whitespace, which is all the
fixed-column format produces. -/
def pyStrip (s : String) : String :=
  let ws : Char → Bool := fun c =>
    c = ' ' || c = '\t' || c = '\n' || c = '\r' || c = '\x0b' || c = '\x0c'
  ⟨(s.data.dropWhile ws).reverse.dropWhile ws |>.reverse⟩

/-- Python slice `s[a:b]` on a string (character indices, end exclusive). -/
def pySlice (s : String) (a b : Nat) : String :=
  ⟨(s.data.drop a).take (b - a)⟩

/-- Value of a nonempty all-digit character list, else `none`. -/
def digitsVal? (cs : List Char) : Option Nat :=
  if cs.isEmpty then none
  else cs.foldl
    (fun acc c =>
      match acc with
      | none => none
      | some n => if c.isDigit then some (n * 10 + (c.toNat - '0'.toNat)) else none)
    (some 0)

/-- Value of a possibly empty all-digit character list, else `none`. -/
def digitsVal0? (cs : List Char) : Option Nat :=
  if cs.isEmpty then some 0 else digitsVal? cs

/-- Leading sign of a numeric literal: `(negative, rest)`. -/
def splitSign : List Char → Bool × List Char
  | '+' :: cs => (false, cs)
  | '-' :: cs => (true, cs)
  | cs => (false, cs)

/-- Python `int(s)` on an already stripped string: optional sign followed by
at least one digit; anything else raises `ValueError`, i.e. `none`.
(Underscore digit grouping is not modelled; it does not occur in the
fixed-column fields.) -/
def pyIntOpt (s : String) : Option Int :=
  let (neg, cs) := splitSign s.data
  (digitsVal? cs).map fun n => if neg then -(n : Int) else (n : Int)

/-- Mantissa of a float literal: `digits`, `digits.digits`, `digits.` or
`.digits` (at least one digit overall). -/
def mantissaVal? (cs : List Char) : Option ℚ :=
  match cs.splitOn '.' with
  | [ip] => (digitsVal? ip).map fun n => (n : ℚ)
  | [ip, fp] =>
    if ip.isEmpty && fp.isEmpty then none
    else
      match digitsVal0? ip, digitsVal0? fp with
      | some i, some f => some ((i : ℚ) + (f : ℚ) / (10 : ℚ) ^ fp.length)
      | _, _ => none
  | _ => none

/-- Python `float(s)` on an already stripped string: optional sign, decimal
mantissa, optional exponent.  The special forms `inf`/`nan` and underscore
grouping are not modelled; they do not occur in the coordinate and
temperature-factor columns this parser reads. -/
def pyFloatOpt (s : String) : Option ℚ :=
  let (neg, cs) := splitSign s.data
  let low := cs.map Char.toLower
  let signed : ℚ → ℚ := fun q => if neg then -q else q
  match low.splitOn 'e' with
  | [m] => (mantissaVal? m).map signed
  | [m, e] =>
    match mantissaVal? m, splitSign e with
    | some q, (eneg, ecs) =>
      (digitsVal? ecs).map fun n =>
        signed (q * (10 : ℚ) ^ (if eneg then -(n : Int) else (n : Int)))
    | none, _ => none
  | _ => none

/-- Fields extracted from one atom-record line by `parse_atom_line`, plus the
derived residue key.  `parse_atom_line` builds a fresh `Mer` and an `Atom`
pointing at it; the fields needed downstream are kept here. -/
structure ParsedAtom where
  mer_name : String
  residue_name : String
  residue_number : Int
  chain_id : String
  atom : Atom
deriving DecidableEq, Repr, Inhabited

/-- Embedding of `parse_atom_line` (`polmst.py`).  Any failure inside the
`try` block — a line shorter than 66 characters, or a numeric column that
`int`/`float` rejects — yields `None`; the embedding returns `none` on
exactly those paths. -/
def parse_atom_line (line : String) : Option ParsedAtom :=
  if line.length < 66 then none
  else
    match pyIntOpt (pyStrip (pySlice line 6 11)),
        pyIntOpt (pyStrip (pySlice line 22 26)),
        pyFloatOpt (pyStrip (pySlice line 30 38)),
        pyFloatOpt (pyStrip (pySlice line 38 46)),
        pyFloatOpt (pyStrip (pySlice line 46 54)),
        pyFloatOpt (pyStrip (pySlice line 60 66)) with
    | some atom_id, some residue_number, some x, some y, some z, some temp_factor =>
      let name := pyStrip (pySlice line 12 16)
      let residue_name := pyStrip (pySlice line 17 20)
      let chain_id := pyStrip (pySlice line 21 22)
      let location : Location := ⟨x, y, z⟩
      let mer_name :=
        residue_name ++ "-" ++ toString residue_number ++ "(" ++ chain_id ++ ")"
      some
        { mer_name := mer_name
          residue_name := residue_name
          residue_number := residue_number
          chain_id := chain_id
          atom :=
            { atom_id := atom_id
              name := name
              type := residue_name
              charge := ""
              location := location
              temp_factor := temp_factor } }
    | _, _, _, _, _, _ => none

/-- Python `line.startswith("ATOM") or line.startswith("HETATM")`. -/
def isAtomRecord (line : String) : Bool :=
  "ATOM".data.isPrefixOf line.data || "HETATM".data.isPrefixOf line.data

/-- Embedding of `Mer.calc_com` (`models.py`). -/
def Mer.calc_com (m : Mer) : Mer :=
  if m.atoms.isEmpty then { m with center_of_mass := ⟨0, 0, 0⟩ }
  else
    let n : ℚ := m.atoms.length
    { m with
      center_of_mass :=
        ⟨(m.atoms.map (·.location.x)).sum / n,
         (m.atoms.map (·.location.y)).sum / n,
         (m.atoms.map (·.location.z)).sum / n⟩ }

/-- One line's effect in the `parse_atoms` loop: atom-record lines that parse
are attached to their residue (the residue is created on first sight, keyed
by the `str` residue key); all other lines leave the mapping unchanged. -/
def parseStep (mers : Mers) (line : String) : Mers :=
  if isAtomRecord line then
    match parse_atom_line line with
    | none => mers
    | some pa =>
      let key := PyKey.pstr pa.mer_name
      let mers :=
        if dictContains mers key then mers
        else
          dictSet mers key
            { name := pa.mer_name
              type := pa.residue_name
              mer_id := pa.residue_number
              chain := pa.chain_id
              atoms := []
              bond_count := []
              center_of_mass := ⟨0, 0, 0⟩ }
      match dictGet? mers key with
      | some m => dictSet mers key { m with atoms := m.atoms ++ [pa.atom] }
      | none => mers
  else mers

/-- Embedding of `parse_atoms` (`polmst.py`): fold the lines, then compute
each residue's centre of mass. -/
def parse_atoms (raw_lines : List String) : Mers :=
  let mers := raw_lines.foldl parseStep []
  mers.map fun (k, m) => (k, m.calc_com)

/-- Element of the mer-object list `mer_list = list(mers.values())` at index
`i` (indices used below always lie in range). -/
def merListAt (l : List Mer) (i : Nat) : Mer :=
  l.getD i default

/-- Inner scan of the first loop nest of `calculate_interactions`: some atom
of `src` lies strictly closer than 4.5 to some atom of `dst` (the `break`s
only short-circuit the scan, so the loop is equivalent to this existence
check).  4.5² = 81/4. -/
def anyPairCloser45 (src dst : Mer) : Bool :=
  src.atoms.any fun a => dst.atoms.any fun b => a.location.distSq b.location < 81 / 4

/-- Atom-pair scan of `Mer.is_bonded_to` (`models.py`): some atom pair at
distance at most its `threshold=4.0`.  4² = 16. -/
def anyPairWithin40 (src dst : Mer) : Bool :=
  src.atoms.any fun a => dst.atoms.any fun b => a.location.distSq b.location ≤ 16

/-- Embedding of `Mer.add_bond` (`models.py`): bump this mer's counter for the
other mer.  The dict key is the other `Mer` object, hence `PyKey.pmer`. -/
def Mer.add_bond (m : Mer) (otherName : String) : Mer :=
  { m with
    bond_count :=
      dictSet m.bond_count (PyKey.pmer otherName)
        (dictGetD m.bond_count (PyKey.pmer otherName) 0 + 1) }

/-- Apply `add_bond` to the mer named `a` (for the mer named `b`) inside the
shared object list.  Python mutates the one `Mer` object with that name;
residue names are unique per parsed structure (they are the dict keys), so
update-by-name models the in-place mutation. -/
def bumpBond (l : List Mer) (a b : String) : List Mer :=
  l.map fun m => if m.name = a then m.add_bond b else m

/-- Index pairs `(i, j)` visited by the first loop nest of
`calculate_interactions`: all ordered pairs with `i ≠ j`. -/
def orderedPairs (n : Nat) : List (Nat × Nat) :=
  (List.range n).flatMap fun i => ((List.range n).filter fun j => j != i).map fun j => (i, j)

/-- Index pairs `(i, j)` with `i < j` visited by the second loop nest. -/
def pairsLt (n : Nat) : List (Nat × Nat) :=
  (List.range n).flatMap fun i => (List.range' (i + 1) (n - (i + 1))).map fun j => (i, j)

/-- One step of the first loop nest: if some atom pair is strictly within
4.5, `src.add_bond(dst)` and `dst.add_bond(src)` run once (then the scan
breaks out). -/
def interactStep1 (l : List Mer) (p : Nat × Nat) : List Mer :=
  let src := merListAt l p.1
  let dst := merListAt l p.2
  if anyPairCloser45 src dst then bumpBond (bumpBond l src.name dst.name) dst.name src.name
  else l

/-- Embedding of `Interaction.__init__` (`models.py`): affinity from the
*current* bond count and the atom counts (`len(...) or 1` guards), no
`weight` attribute.  `math.sqrt` is embedded as `Rat.sqrt`, which agrees
with it exactly on perfect squares; every concrete instance evaluated in
this development has a perfect-square atom-count product. -/
def mkInteraction (from_mer to_mer : Mer) : Interaction :=
  let bond_count := dictGetD from_mer.bond_count (PyKey.pmer to_mer.name) 0
  let from_size := if from_mer.atoms.length = 0 then 1 else from_mer.atoms.length
  let to_size := if to_mer.atoms.length = 0 then 1 else to_mer.atoms.length
  { from_mer := from_mer.name
    to_mer := to_mer.name
    affinity := (bond_count : ℚ) / Rat.sqrt ((from_size : ℚ) * (to_size : ℚ)) }

/-- One step of the second loop nest: `src.is_bonded_to(dst)` scans atom
pairs against its own threshold 4.0 and, on success, increments both bond
counters *again* and returns True, upon which an `Interaction` is built from
the already-incremented counters. -/
def interactStep2 (st : List Mer × List Interaction) (p : Nat × Nat) : List Mer × List Interaction :=
  let (l, inters) := st
  let src := merListAt l p.1
  let dst := merListAt l p.2
  if anyPairWithin40 src dst then
    let l' := bumpBond (bumpBond l src.name dst.name) dst.name src.name
    (l', inters ++ [mkInteraction (merListAt l' p.1) (merListAt l' p.2)])
  else (l, inters)

/-- Embedding of `calculate_interactions` (`polmst.py`).  The Python code
mutates the `Mer` objects shared between `mers` and `mer_list`; the returned
mapping pairs the unchanged keys with the updated objects. -/
def calculate_interactions (mers : Mers) : Mers × List Interaction :=
  let vals := dictValues mers
  let n := vals.length
  let l1 := (orderedPairs n).foldl interactStep1 vals
  let (l2, inters) := (pairsLt n).foldl interactStep2 (l1, [])
  ((dictKeys mers).zip l2, inters)

/-- Adjacency map: residue key (a `str`) to neighbour key to weight. -/
abbrev Adj := List (String × List (String × ℚ))

/-- Inner loop body of `build_adjacency_map` for one `from_mer`: iterate its
`bond_count.items()`.  The iterated keys are `Mer` objects
(`PyKey.pmer ...`), while `mers` is keyed by `str` residue names
(`PyKey.pstr ...`), so the `to_mer_name not in mers` test compares a `Mer`
against `str` keys; it fails whenever the key is a `Mer`, a warning is
logged, and the edge is skipped. -/
def buildStep (mers : Mers) (adjacency_map : Adj) (from_mer : Mer) : Adj :=
  from_mer.bond_count.foldl
    (fun adj kv =>
      let (to_mer_key, bond_count) := kv
      if bond_count > 0 then
        match dictGet? mers to_mer_key with
        | none => adj
        | some to_mer_obj =>
          let affinity :=
            (bond_count : ℚ) /
              Rat.sqrt ((from_mer.atoms.length : ℚ) * (to_mer_obj.atoms.length : ℚ))
          let weight := 1 / affinity
          let adj :=
            dictSet adj from_mer.name
              (dictSet (dictGetD adj from_mer.name []) to_mer_obj.name weight)
          dictSet adj to_mer_obj.name
            (dictSet (dictGetD adj to_mer_obj.name []) from_mer.name weight)
      else adj)
    adjacency_map

/-- Embedding of `build_adjacency_map` (`polmst.py`): initialise an empty
neighbour dict per mer name, fill from bond counts, prune empty entries. -/
def build_adjacency_map (mers : Mers) : Adj :=
  let init : Adj := (dictValues mers).foldl (fun d m => dictSet d m.name []) []
  let adj := (dictValues mers).foldl (buildStep mers) init
  adj.filter fun p => !p.2.isEmpty

/-- Distance map: `none` stands for `math.inf` (unreachable). -/
abbrev DistMap := List (String × Option ℚ)

/-- Predecessor map from dijkstra. -/
abbrev PredMap := List (String × Option String)

/-- Comparison of distances with `none` as `math.inf`. -/
def distLt : Option ℚ → Option ℚ → Bool
  | some a, some b => decide (a < b)
  | some _, none => true
  | none, _ => false

/-- Read a distance; a missing key reads as `math.inf` (the theorems below
only query keys that are present, where this agrees with Python's
`distances[m]`). -/
def dGet (dist : DistMap) (k : String) : Option ℚ :=
  (dictGet? dist k).join

/-- Python `min(unvisited, key=lambda m: distances[m])`: first element with
minimal distance.  (`unvisited` is a Python `set`, whose iteration order is
unspecified; the embedding fixes it to insertion order, i.e. the adjacency
key order, as a determinisation.) -/
def pickMin (dist : DistMap) : List String → String
  | [] => ""
  | x :: xs => xs.foldl (fun best m => if distLt (dGet dist m) (dGet dist best) then m else best) x

/-- Relaxation loop of dijkstra over `adjacency_map[current].items()`. -/
def relaxFold (current : String) (dc : ℚ) (visited : List String)
    (st : DistMap × PredMap) (items : List (String × ℚ)) : DistMap × PredMap :=
  items.foldl
    (fun st nw =>
      let (dist, pred) := st
      let (neighbor, weight) := nw
      if neighbor ∈ visited then st
      else
        let new_dist := dc + weight
        if distLt (some new_dist) (dGet dist neighbor) then
          (dictSet dist neighbor (some new_dist), dictSet pred neighbor (some current))
        else st)
    st

/-- Main loop of `dijkstra`.  Each iteration removes one node from
`unvisited`, so `unvisited.length` steps of fuel always suffice; the fuel-0
branch is unreachable from `dijkstra` below. -/
def dijkstraAux (adjacency_map : Adj) :
    Nat → List String → List String → DistMap × PredMap → DistMap × PredMap
  | 0, _, _, st => st
  | fuel + 1, unvisited, visited, st =>
    match unvisited with
    | [] => st
    | _ :: _ =>
      let (dist, pred) := st
      let current := pickMin dist unvisited
      let unvisited' := unvisited.erase current
      let visited' := visited ++ [current]
      match dGet dist current with
      | none => (dist, pred)
      | some dc =>
        let st' := relaxFold current dc visited' (dist, pred) (dictGetD adjacency_map current [])
        dijkstraAux adjacency_map fuel unvisited' visited' st'

/-- Embedding of `dijkstra` (`polmst.py`).  `distances[source_mer] = 0.0`
uses dict assignment, which appends the key when the source is not in the
map. -/
def dijkstra (adjacency_map : Adj) (source_mer : String) : DistMap × PredMap :=
  let keys := dictKeys adjacency_map
  let distances : DistMap := keys.map fun m => (m, (none : Option ℚ))
  let distances := dictSet distances source_mer (some 0)
  let predecessors : PredMap := keys.map fun m => (m, (none : Option String))
  dijkstraAux adjacency_map keys.length keys [] (distances, predecessors)

/-- Total distance used by `find_best_source_mer`: the sum of the finite
entries of a distance map; `math.inf` entries are filtered out and so
contribute zero. -/
def sumFiniteDistances (dist : DistMap) : ℚ :=
  ((dictValues dist).filterMap id).sum

/-- Embedding of `find_best_source_mer` (`polmst.py`).  The `mers` parameter
is unused, as in the source.  The fold keeps the first node whose total is
strictly smaller than the current minimum (initially `math.inf`). -/
def find_best_source_mer (mers : Mers) (adjacency_map : Adj) : Option String :=
  ((dictKeys adjacency_map).foldl
    (fun st source_mer =>
      let (_, min_total_distance) := st
      let dist := (dijkstra adjacency_map source_mer).1
      let total_distance := sumFiniteDistances dist
      if distLt (some total_distance) min_total_distance then
        (some source_mer, some total_distance)
      else st)
    ((none : Option String), (none : Option ℚ))).1

/-- Read a predecessor entry; a missing key reads as `None` (the theorems
below only query keys that are present, where this agrees with Python's
`predecessors[current]`). -/
def pGet (predecessors : PredMap) (k : String) : Option String :=
  (dictGet? predecessors k).join

/-- Predecessor-following loop of `reconstruct_path`.  The Python `while`
loop has no fuel; `none` models divergence on a cyclic predecessor map.
The acyclicity theorem for dijkstra shows the fuel used by
`reconstruct_path` below is never exhausted on maps dijkstra returns. -/
def reconPathAux (predecessors : PredMap) : Nat → String → List String → Option (List String)
  | 0, _, _ => none
  | fuel + 1, current, path =>
    let path := path ++ [current]
    match pGet predecessors current with
    | none => some path.reverse
    | some nxt => reconPathAux predecessors fuel nxt path

/-- Embedding of `reconstruct_path` (`polmst.py`). -/
def reconstruct_path (predecessors : PredMap) (target_mer : String) : Option (List String) :=
  reconPathAux predecessors (predecessors.length + 1) target_mer []

/-- Exceptions raised by the embedded code. -/
inductive PyErr where
  | attributeErrorWeight
  | noValidSourceMer
  | nonTermination
deriving DecidableEq, Repr

/-- Match test of the interaction-searching loop in
`sum_weights_along_path`. -/
def interactionMatches (interaction : Interaction) (from_mer to_mer : String) : Bool :=
  (interaction.from_mer == from_mer && interaction.to_mer == to_mer) ||
    (interaction.from_mer == to_mer && interaction.to_mer == from_mer)

/-- Embedding of `sum_weights_along_path` (`polmst.py`).  For each
consecutive pair of the path it looks for a matching interaction; on a match
it executes `total_weight += interaction.weight`, and `Interaction` has no
`weight` attribute (`models.py` sets only `from_mer`, `to_mer`,
`affinity`), so that statement raises `AttributeError`.  When no interaction
matches, the inner loop just ends and the total is unchanged. -/
def sum_weights_along_path (mers : Mers) (interactions : List Interaction)
    (path : List String) : Except PyErr ℚ :=
  (path.zip path.tail).foldlM
    (fun (total_weight : ℚ) p =>
      match interactions.find? (fun i => interactionMatches i p.1 p.2) with
      | some _ => .error .attributeErrorWeight
      | none => .ok total_weight)
    (0 : ℚ)

/-- Residue-number recovery in `generate_enhanced_pdb`:
`int(mer.split('-')[1].split('(')[0])` with `except: 0`. -/
def merResidueNumber (mer : String) : Int :=
  match (mer.splitOn "-").get? 1 with
  | some part =>
    match ((part.splitOn "(").get? 0).bind (fun t => pyIntOpt (pyStrip t)) with
    | some n => n
    | none => 0
  | none => 0

/-- Chain-id recovery in `generate_enhanced_pdb`: `mer.split('(')[1][0]`
with `except: ' '` (indexing an empty piece also raises). -/
def merChainId (mer : String) : String :=
  match (mer.splitOn "(").get? 1 with
  | some part =>
    match part.data.head? with
    | some c => String.singleton c
    | none => " "
  | none => " "

/-- Synthesised per-mer `ATOM` line of `generate_enhanced_pdb`: a single
`CA` record at the mer's centre of mass carrying the weight in the
temperature-factor column.  The fixed-width padding of the numeric fields is
abstracted (`toString` instead of `format`); the claims verified here depend
only on the literal `"ATOM  "` record-type prefix the format string emits. -/
def renderMerLine (mers : Mers) (mer : String) (weight : Option ℚ) : String :=
  let loc :=
    match dictGet? mers (PyKey.pstr mer) with
    | some m => m.center_of_mass
    | none => (⟨0, 0, 0⟩ : Location)
  let weightStr := match weight with
    | some q => toString q
    | none => "inf"
  "ATOM  " ++
    (toString (0 : Int) ++ " " ++ "CA" ++ " " ++
      ((mer.splitOn "-").headD "") ++ " " ++ merChainId mer ++
      toString (merResidueNumber mer) ++ "    " ++
      toString loc.x ++ toString loc.y ++ toString loc.z ++
      toString (1 : ℚ) ++ weightStr ++ "          ")

/-- Embedding of `generate_enhanced_pdb` (`polmst.py`).  The source reads
the original file from its path; the embedding receives the file's lines.
Output, as a list of lines: the original header lines up to (excluding) the
first atom record, two `REMARK` lines, a blank line (the second `write` ends
in a double newline), and one synthesised `ATOM` line per entry of the
weights dict.  None of the original atom records are copied: the header
loop `break`s at the first one and nothing else reads the file. -/
def generate_enhanced_pdb (weights : List (String × Option ℚ)) (source_mer : String)
    (original_lines : List String) (mers : Mers) : List String :=
  let headers := original_lines.takeWhile fun line => !isAtomRecord line
  headers ++
    ["REMARK Weights from source mer " ++ source_mer ++
       " are stored in the temperature factor column.",
     "REMARK Other fields such as atom ID, charge, and occupancy may be placeholders.",
     ""] ++
    weights.map fun p => renderMerLine mers p.1 p.2

/-- Count of atom-record (`ATOM`/`HETATM`) lines in a document. -/
def countAtomRecordLines (lines : List String) : Nat :=
  lines.countP fun line => isAtomRecord line

/-- Result tuple of `process_pdb_file`: best source mer, mers,
total_weight_sums, all_enhanced_pdbs, interactions. -/
abbrev ProcResult :=
  String × Mers × List (String × Option ℚ) × List (String × List String) × List Interaction

/-- Embedding of `process_pdb_file` (`polmst.py`), taking the file's lines
(`read_input_file` is the only I/O).  Raised exceptions become `Except`
errors: the explicit `raise ValueError("No valid source mer found.")` when
no best source exists, and the `AttributeError` from
`sum_weights_along_path` when it reaches `interaction.weight`. -/
def process_pdb_file (raw_lines : List String) : Except PyErr ProcResult :=
  let mers := parse_atoms raw_lines
  let (mers, interactions) := calculate_interactions mers
  let adjacency_map := build_adjacency_map mers
  match find_best_source_mer mers adjacency_map with
  | none => .error .noValidSourceMer
  | some best_source_mer =>
    let (distances, predecessors) := dijkstra adjacency_map best_source_mer
    do
      let total_weight_sums ←
        (dictKeys adjacency_map).foldlM
          (fun (tws : List (String × Option ℚ)) mer =>
            if mer = best_source_mer then pure (dictSet tws mer (some 0))
            else
              match dGet distances mer with
              | none => pure (dictSet tws mer none)
              | some _ =>
                match reconstruct_path predecessors mer with
                | none => Except.error PyErr.nonTermination
                | some path => do
                  let total_weight ← sum_weights_along_path mers interactions path
                  pure (dictSet tws mer (some total_weight)))
          []
      let all_enhanced_pdbs :=
        (dictKeys adjacency_map).foldl
          (fun d source_mer =>
            dictSet d source_mer
              (generate_enhanced_pdb (dijkstra adjacency_map source_mer).1 source_mer
                raw_lines mers))
          []
      pure (best_source_mer, mers, total_weight_sums, all_enhanced_pdbs, interactions)


set_option maxRecDepth 100000

theorem parseStep_of_none (mers : Mers) (bad : String) (h : parse_atom_line bad = none) :
    parseStep mers bad = mers := by
  unfold parseStep
  cases hA : isAtomRecord bad <;> simp [h]

/-- C8.  For every list of raw input lines, `parse_atoms` returns a residue
mapping without raising (the embedding is a total function and every failure
path of `parse_atom_line` yields `none`): an atom-record line shorter than 66
characters is rejected; a line whose serial, residue-number, coordinate or
annotation column fails numeric conversion is rejected; and a rejected line
contributes no atom and does not affect the parsing of any other line. -/
theorem claim_C8 :
    (∀ line : String, line.length < 66 → parse_atom_line line = none) ∧
    (∀ line : String,
      (pyIntOpt (pyStrip (pySlice line 6 11)) = none ∨
       pyIntOpt (pyStrip (pySlice line 22 26)) = none ∨
       pyFloatOpt (pyStrip (pySlice line 30 38)) = none ∨
       pyFloatOpt (pyStrip (pySlice line 38 46)) = none ∨
       pyFloatOpt (pyStrip (pySlice line 46 54)) = none ∨
       pyFloatOpt (pyStrip (pySlice line 60 66)) = none) →
      parse_atom_line line = none) ∧
    (∀ (pre post : List String) (bad : String), parse_atom_line bad = none →
      parse_atoms (pre ++ bad :: post) = parse_atoms (pre ++ post)) := by
  refine ⟨?_, ?_, ?_⟩
  · intro line h
    unfold parse_atom_line
    simp [h]
  · intro line h
    unfold parse_atom_line
    by_cases h66 : line.length < 66
    · simp [h66]
    · simp only [h66, if_false]
      rcases h with h | h | h | h | h | h <;> rw [h] <;>
        cases pyIntOpt (pyStrip (pySlice line 6 11)) <;>
        cases pyIntOpt (pyStrip (pySlice line 22 26)) <;>
        cases pyFloatOpt (pyStrip (pySlice line 30 38)) <;>
        cases pyFloatOpt (pyStrip (pySlice line 38 46)) <;>
        cases pyFloatOpt (pyStrip (pySlice line 46 54)) <;>
        cases pyFloatOpt (pyStrip (pySlice line 60 66)) <;> rfl
  · intro pre post bad h
    unfold parse_atoms
    rw [List.foldl_append, List.foldl_append, List.foldl_cons, parseStep_of_none _ _ h]

/-- C8 witness: a short atom-record line and a line with a non-numeric
coordinate column are both rejected and skipped without affecting the
surrounding lines. -/
theorem claim_C8_witness :
    parse_atom_line "ATOM" = none ∧
    parse_atom_line
      "ATOM      1  CA  GLY A   1       xx.xxx   0.000   0.000  1.00  0.00" = none ∧
    parse_atoms
      ["ATOM      1  CA  GLY A   1       0.000   0.000   0.000  1.00  0.00",
       "ATOM      1  CA  GLY A   1       xx.xxx   0.000   0.000  1.00  0.00"] =
      parse_atoms
      ["ATOM      1  CA  GLY A   1       0.000   0.000   0.000  1.00  0.00"] := by
  refine ⟨claim_C8.1 "ATOM" (by decide), ?_, ?_⟩
  · exact claim_C8.2.1 _ (Or.inr (Or.inr (Or.inl (by with_unfolding_all rfl))))
  · exact claim_C8.2.2
      ["ATOM      1  CA  GLY A   1       0.000   0.000   0.000  1.00  0.00"] []
      "ATOM      1  CA  GLY A   1       xx.xxx   0.000   0.000  1.00  0.00"
      (claim_C8.2.1 _ (Or.inr (Or.inr (Or.inl (by with_unfolding_all rfl)))))

/-- Test for a `str`-valued key. -/
def PyKey.isStr : PyKey → Bool
  | .pstr _ => true
  | .pmer _ => false

/-- Test for a `Mer`-valued key. -/
def PyKey.isMer : PyKey → Bool
  | .pstr _ => false
  | .pmer _ => true

/-- All keys of a residue mapping are Python `str` objects (true of every
mapping `parse_atoms` builds: it only assigns `mers[mer_name]` with the
`str` residue key). -/
def strKeyed (mers : Mers) : Bool :=
  mers.all fun p => p.1.isStr

/-- All `bond_count` keys of a residue mapping are `Mer` objects (true of
every mapping in the pipeline: `add_bond` is the only writer and its key is
the other `Mer`). -/
def merBondKeys (mers : Mers) : Bool :=
  mers.all fun p => p.2.bond_count.all fun q => q.1.isMer

theorem dictGet?_mer_key (mers : Mers) (h : strKeyed mers = true) (k : PyKey)
    (hk : k.isMer = true) : dictGet? mers k = none := by
  induction mers with
  | nil => rfl
  | cons p t ih =>
    obtain ⟨k', v⟩ := p
    rw [strKeyed, List.all_cons, Bool.and_eq_true] at h
    have hne : k' ≠ k := by
      intro he
      subst he
      cases k' <;> simp [PyKey.isStr] at h hk <;> simp [PyKey.isMer] at hk
    rw [dictGet?, if_neg hne]
    exact ih (by rw [strKeyed]; exact h.2)

theorem buildStep_eq_self (mers : Mers) (h : strKeyed mers = true) (adj : Adj) (m : Mer)
    (hm : m.bond_count.all (fun q => q.1.isMer) = true) :
    buildStep mers adj m = adj := by
  unfold buildStep
  generalize hl : m.bond_count = l at hm ⊢
  clear hl
  induction l generalizing adj with
  | nil => rfl
  | cons q t ih =>
    obtain ⟨qk, qb⟩ := q
    rw [List.all_cons, Bool.and_eq_true] at hm
    rw [List.foldl_cons]
    have hg : dictGet? mers qk = none := dictGet?_mer_key mers h qk hm.1
    by_cases hb : qb > 0
    · simp only [hg, hb, if_pos]
      exact ih adj hm.2
    · simp only [hb, if_neg, ite_false]
      exact ih adj hm.2

theorem dictSet_pair_prop {α β : Type} [DecidableEq α] (P : α × β → Prop)
    (d : List (α × β)) (k : α) (v : β)
    (hd : ∀ p ∈ d, P p) (hv : P (k, v)) : ∀ p ∈ dictSet d k v, P p := by
  induction d with
  | nil =>
    intro p hp
    rw [dictSet] at hp
    simp at hp
    subst hp
    exact hv
  | cons q t ih =>
    obtain ⟨k', v'⟩ := q
    intro p hp
    rw [dictSet] at hp
    by_cases he : k' = k
    · subst he
      rw [if_pos rfl] at hp
      rcases List.mem_cons.1 hp with h1 | h1
      · subst h1; exact hv
      · exact hd _ (List.mem_cons_of_mem _ h1)
    · rw [if_neg he] at hp
      rcases List.mem_cons.1 hp with h1 | h1
      · subst h1; exact hd _ (List.mem_cons_self _ _)
      · exact ih (fun p hp => hd _ (List.mem_cons_of_mem _ hp)) _ h1

theorem initFold_values_nil (vals : List Mer) :
    ∀ (d : Adj), (∀ p ∈ d, p.2 = []) →
      ∀ p ∈ vals.foldl (fun d m => dictSet d m.name ([] : List (String × ℚ))) d, p.2 = [] := by
  induction vals with
  | nil => intro d hd; exact hd
  | cons m t ih =>
    intro d hd
    rw [List.foldl_cons]
    exact ih _ (dictSet_pair_prop (fun p => p.2 = []) d m.name [] hd rfl)

theorem filter_nonempty_of_all_nil (d : Adj) (hd : ∀ p ∈ d, p.2 = []) :
    (d.filter fun p => !p.2.isEmpty) = [] := by
  induction d with
  | nil => rfl
  | cons p t ih =>
    obtain ⟨k, v⟩ := p
    have hv : v = [] := hd (k, v) (List.mem_cons_self _ _)
    subst hv
    rw [List.filter_cons]
    simp only [List.isEmpty_nil, Bool.not_true, Bool.false_eq_true, if_false]
    exact ih fun q hq => hd q (List.mem_cons_of_mem _ hq)

/-- On any residue mapping whose keys are `str`s and whose bond counts are
keyed by `Mer` objects — which is every mapping the pipeline ever builds —
`build_adjacency_map` returns the empty map: the `to_mer_name not in mers`
test compares a `Mer` key against `str` keys and always fails, so no edge is
ever written and the pruning pass deletes every (empty) entry. -/
theorem build_adjacency_map_eq_nil (mers : Mers)
    (h1 : strKeyed mers = true) (h2 : merBondKeys mers = true) :
    build_adjacency_map mers = [] := by
  simp only [build_adjacency_map]
  have hbuild : ∀ (vs : List Mer), (∀ m ∈ vs, m.bond_count.all (fun q => q.1.isMer) = true) →
      ∀ (a : Adj), vs.foldl (buildStep mers) a = a := by
    intro vs
    induction vs with
    | nil => intro _ a; rfl
    | cons m t ih =>
      intro hvs a
      rw [List.foldl_cons, buildStep_eq_self mers h1 a m (hvs m (List.mem_cons_self _ _))]
      exact ih (fun m hm => hvs m (List.mem_cons_of_mem _ hm)) a
  rw [hbuild _ ?hv]
  case hv =>
    intro m hm
    rw [dictValues] at hm
    obtain ⟨p, hp, hpm⟩ := List.mem_map.1 hm
    rw [merBondKeys, List.all_eq_true] at h2
    have := h2 p hp
    rw [hpm] at this
    exact this
  exact filter_nonempty_of_all_nil _ (initFold_values_nil _ [] (by simp))

/-- Well-shapedness every pipeline mapping has: `str` outer keys, `Mer`
bond-count keys. -/
def GoodMers (d : Mers) : Prop :=
  ∀ p ∈ d, p.1.isStr = true ∧ (p.2.bond_count.all fun q => q.1.isMer) = true

theorem dictGet?_mem {α β : Type} [DecidableEq α] {d : List (α × β)} {k : α} {v : β}
    (h : dictGet? d k = some v) : ∃ p ∈ d, p.2 = v := by
  induction d with
  | nil => simp [dictGet?] at h
  | cons q t ih =>
    obtain ⟨k', v'⟩ := q
    rw [dictGet?] at h
    by_cases he : k' = k
    · rw [if_pos he] at h
      exact ⟨(k', v'), List.mem_cons_self _ _, by injection h⟩
    · rw [if_neg he] at h
      obtain ⟨p, hp, hpv⟩ := ih h
      exact ⟨p, List.mem_cons_of_mem _ hp, hpv⟩

theorem Mer.calc_com_bond_count (m : Mer) : m.calc_com.bond_count = m.bond_count := by
  rw [Mer.calc_com]
  split <;> rfl

theorem Mer.calc_com_name (m : Mer) : m.calc_com.name = m.name := by
  rw [Mer.calc_com]
  split <;> rfl

theorem Mer.calc_com_atoms (m : Mer) : m.calc_com.atoms = m.atoms := by
  rw [Mer.calc_com]
  split <;> rfl

theorem parseStep_good (d : Mers) (line : String) (hd : GoodMers d) :
    GoodMers (parseStep d line) := by
  rw [parseStep]
  by_cases hA : isAtomRecord line = true
  · rw [if_pos hA]
    cases hpa : parse_atom_line line with
    | none => exact hd
    | some pa =>
      dsimp only
      have hmid : GoodMers
          (if dictContains d (PyKey.pstr pa.mer_name) = true then d
           else dictSet d (PyKey.pstr pa.mer_name)
            { name := pa.mer_name
              type := pa.residue_name
              mer_id := pa.residue_number
              chain := pa.chain_id
              atoms := []
              bond_count := []
              center_of_mass := ⟨0, 0, 0⟩ }) := by
        split
        · exact hd
        · exact dictSet_pair_prop _ d _ _ hd ⟨rfl, rfl⟩
      cases hget : dictGet?
          (if dictContains d (PyKey.pstr pa.mer_name) = true then d
           else dictSet d (PyKey.pstr pa.mer_name)
            { name := pa.mer_name
              type := pa.residue_name
              mer_id := pa.residue_number
              chain := pa.chain_id
              atoms := []
              bond_count := []
              center_of_mass := ⟨0, 0, 0⟩ }) (PyKey.pstr pa.mer_name) with
      | none => simp only [hget]; exact hmid
      | some m =>
        simp only [hget]
        obtain ⟨p, hp, hpm⟩ := dictGet?_mem hget
        have hpgood := hmid p hp
        refine dictSet_pair_prop _ _ _ _ hmid ⟨rfl, ?_⟩
        have hbc : ({ m with atoms := m.atoms ++ [pa.atom] } : Mer).bond_count = m.bond_count := rfl
        show ({ m with atoms := m.atoms ++ [pa.atom] } : Mer).bond_count.all (fun q => q.1.isMer) = true
        rw [hbc, ← hpm]
        exact hpgood.2
  · rw [if_neg hA]
    exact hd

theorem parse_atoms_good (raw_lines : List String) : GoodMers (parse_atoms raw_lines) := by
  rw [parse_atoms]
  have hfold : ∀ (d : Mers), GoodMers d → GoodMers (raw_lines.foldl parseStep d) := by
    induction raw_lines with
    | nil => intro d hd; exact hd
    | cons l t ih =>
      intro d hd
      rw [List.foldl_cons]
      exact ih _ (parseStep_good d l hd)
  intro p hp
  obtain ⟨q, hq, hqp⟩ := List.mem_map.1 hp
  have hgood := hfold [] (by intro p hp; simp at hp) q hq
  rw [← hqp]
  exact ⟨hgood.1, by rw [Mer.calc_com_bond_count]; exact hgood.2⟩

/-- Bond-key goodness of a plain mer-object list. -/
def GoodList (l : List Mer) : Prop :=
  ∀ m ∈ l, (m.bond_count.all fun q => q.1.isMer) = true

theorem add_bond_good (m : Mer) (b : String)
    (hm : (m.bond_count.all fun q => q.1.isMer) = true) :
    ((m.add_bond b).bond_count.all fun q => q.1.isMer) = true := by
  rw [Mer.add_bond]
  rw [List.all_eq_true] at hm ⊢
  intro q hq
  have := dictSet_pair_prop (fun q => q.1.isMer = true) m.bond_count (PyKey.pmer b)
    (dictGetD m.bond_count (PyKey.pmer b) 0 + 1) (fun p hp => hm p hp) rfl
  exact this q hq

theorem bumpBond_good (l : List Mer) (a b : String) (hl : GoodList l) :
    GoodList (bumpBond l a b) := by
  intro m hm
  rw [bumpBond] at hm
  obtain ⟨m0, hm0, hmm⟩ := List.mem_map.1 hm
  by_cases he : m0.name = a
  · rw [if_pos he] at hmm
    rw [← hmm]
    exact add_bond_good m0 b (hl m0 hm0)
  · rw [if_neg he] at hmm
    rw [← hmm]
    exact hl m0 hm0

theorem interactStep1_good (l : List Mer) (p : Nat × Nat) (hl : GoodList l) :
    GoodList (interactStep1 l p) := by
  rw [interactStep1]
  split
  · exact bumpBond_good _ _ _ (bumpBond_good _ _ _ hl)
  · exact hl

theorem interactStep2_good (st : List Mer × List Interaction) (p : Nat × Nat)
    (hl : GoodList st.1) : GoodList (interactStep2 st p).1 := by
  obtain ⟨l, inters⟩ := st
  rw [interactStep2]
  dsimp only
  split
  · exact bumpBond_good _ _ _ (bumpBond_good _ _ _ hl)
  · exact hl

theorem calculate_interactions_good (mers : Mers) (h : GoodMers mers) :
    GoodMers (calculate_interactions mers).1 := by
  rw [calculate_interactions]
  dsimp only
  have hvals : GoodList (dictValues mers) := by
    intro m hm
    obtain ⟨p, hp, hpm⟩ := List.mem_map.1 hm
    rw [← hpm]
    exact (h p hp).2
  have h1 : ∀ (ps : List (Nat × Nat)) (l : List Mer), GoodList l →
      GoodList (ps.foldl interactStep1 l) := by
    intro ps
    induction ps with
    | nil => intro l hl; exact hl
    | cons p t ih =>
      intro l hl
      rw [List.foldl_cons]
      exact ih _ (interactStep1_good l p hl)
  have h2 : ∀ (ps : List (Nat × Nat)) (st : List Mer × List Interaction), GoodList st.1 →
      GoodList (ps.foldl interactStep2 st).1 := by
    intro ps
    induction ps with
    | nil => intro st hst; exact hst
    | cons p t ih =>
      intro st hst
      rw [List.foldl_cons]
      exact ih _ (interactStep2_good st p hst)
  intro p hp
  obtain ⟨hk, hv⟩ := List.of_mem_zip hp
  constructor
  · obtain ⟨q, hq, hqk⟩ := List.mem_map.1 hk
    rw [← hqk]
    exact (h q hq).1
  · exact h2 _ _ (h1 _ _ hvals) _ hv

/-- Every invocation of the pipeline fails: the adjacency map is always
empty (see `build_adjacency_map_eq_nil`), so no best source exists and
`process_pdb_file` raises `ValueError("No valid source mer found.")`
whatever the input file contains. -/
theorem process_always_fails (raw_lines : List String) :
    process_pdb_file raw_lines = .error .noValidSourceMer := by
  have hgood : GoodMers (calculate_interactions (parse_atoms raw_lines)).1 :=
    calculate_interactions_good _ (parse_atoms_good raw_lines)
  have hs : strKeyed (calculate_interactions (parse_atoms raw_lines)).1 = true := by
    rw [strKeyed, List.all_eq_true]
    intro p hp
    exact (hgood p hp).1
  have hm : merBondKeys (calculate_interactions (parse_atoms raw_lines)).1 = true := by
    rw [merBondKeys, List.all_eq_true]
    intro p hp
    exact (hgood p hp).2
  rw [process_pdb_file]
  dsimp only
  rcases hc : calculate_interactions (parse_atoms raw_lines) with ⟨m2, ints⟩
  rw [hc] at hs hm
  dsimp only at hs hm ⊢
  rw [build_adjacency_map_eq_nil m2 hs hm]
  rfl

/-- Entry of the adjacency map for ordered pair `(a, b)`:
`adjacency_map[a][b]` when both lookups hit, else `none`. -/
def adjLookup (adj : Adj) (a b : String) : Option ℚ :=
  match dictGet? adj a with
  | some inner => dictGet? inner b
  | none => none

/-- Concrete fixture lines (well-formed 66-column atom records). -/
def exlA : String := "ATOM      1  CA  GLY A   1       0.000   0.000   0.000  1.00  0.00"

def exlB : String := "ATOM      2  CA  ALA A   2       2.000   0.000   0.000  1.00  0.00"

def exlC : String := "ATOM      3  CA  SER B  10     100.000   0.000   0.000  1.00  0.00"

def exlD : String := "ATOM      4  CA  THR B  11     102.000   0.000   0.000  1.00  0.00"

/-- C5.  The adjacency map produced by `build_adjacency_map` is symmetric:
for every pair of residue keys `A`,`B`, the entry for `A → B` equals the
entry for `B → A` (in particular, if one exists with weight `w` so does the
other, with the identical `w`), including after pruning.  The hypotheses say
the input mapping is keyed by `str` residue keys with `Mer`-keyed bond
counts, which holds for every mapping the pipeline constructs; under them
the property is in fact vacuous, because the `Mer`-vs-`str` key mismatch in
the neighbour test makes the builder return the empty map. -/
theorem claim_C5 (mers : Mers) (h1 : strKeyed mers = true) (h2 : merBondKeys mers = true) :
    ∀ A B : String,
      adjLookup (build_adjacency_map mers) A B = adjLookup (build_adjacency_map mers) B A := by
  intro A B
  rw [build_adjacency_map_eq_nil mers h1 h2]
  rfl

/-- C5 witness: the adjacency map built from a parsed two-residue structure
is symmetric at its residue keys. -/
theorem claim_C5_witness :
    adjLookup (build_adjacency_map (calculate_interactions (parse_atoms [exlA, exlB])).1)
        "GLY-1(A)" "ALA-2(A)" =
      adjLookup (build_adjacency_map (calculate_interactions (parse_atoms [exlA, exlB])).1)
        "ALA-2(A)" "GLY-1(A)" :=
  claim_C5 _ (by with_unfolding_all rfl) (by with_unfolding_all rfl) _ _

/-- C2 counterexample.  A structure with two disconnected fragments (two
bonded residue pairs at mutual distance 98) on which `process_pdb_file`
raises `ValueError` instead of returning component-reduced outputs together
with a fragments-discarded flag: the claimed reduction and flag do not
exist, and because `build_adjacency_map` always returns the empty map the
pipeline never returns outputs at all.  The second conjunct shows this input
does carry bonds (one interaction per fragment), so a pipeline behaving as
claimed would have produced nonempty outputs. -/
theorem claim_C2_cex :
    process_pdb_file [exlA, exlB, exlC, exlD] = Except.error PyErr.noValidSourceMer ∧
      (calculate_interactions (parse_atoms [exlA, exlB, exlC, exlD])).2.length = 2 := by
  constructor
  · with_unfolding_all rfl
  · with_unfolding_all rfl

/-- C2 (amended).  `process_pdb_file` performs no connected-component
reduction and returns no fragments flag; on every input it fails with
`ValueError("No valid source mer found.")`, because the `Mer`-object keys of
`bond_count` never match the `str` keys of `mers` in `build_adjacency_map`,
which therefore always returns the empty adjacency map, leaving
`find_best_source_mer` with no candidate. -/
theorem claim_C2 :
    ∀ raw_lines : List String,
      process_pdb_file raw_lines = Except.error PyErr.noValidSourceMer :=
  process_always_fails

/-- C9.  When parsing yields zero residues the pipeline reports the
distinguished failure `ValueError("No valid source mer found.")` rather
than crashing with an unintended exception, and every downstream step
tolerates the empty residue map: bonding returns no interactions, graph
building returns the empty map, and best-source selection returns `None`. -/
theorem claim_C9 (raw_lines : List String) (h : parse_atoms raw_lines = []) :
    process_pdb_file raw_lines = Except.error PyErr.noValidSourceMer ∧
      calculate_interactions [] = ([], []) ∧
      build_adjacency_map [] = [] ∧
      find_best_source_mer [] [] = none :=
  ⟨process_always_fails raw_lines, rfl, rfl, rfl⟩

/-- C9 witness: a file with a header and no atom records parses to the empty
residue map and yields the distinguished failure. -/
theorem claim_C9_witness :
    process_pdb_file ["HEADER TEST FILE"] = Except.error PyErr.noValidSourceMer ∧
      calculate_interactions [] = ([], []) ∧
      build_adjacency_map [] = [] ∧
      find_best_source_mer [] [] = none :=
  claim_C9 ["HEADER TEST FILE"] (by with_unfolding_all rfl)

theorem str_data_append (a b : String) : (a ++ b).data = a.data ++ b.data := rfl

theorem isAtomRecord_atom_prefix (r : String) : isAtomRecord ("ATOM  " ++ r) = true := by
  rw [isAtomRecord, str_data_append]
  have h : "ATOM  ".data = 'A' :: 'T' :: 'O' :: 'M' :: ' ' :: ' ' :: [] := rfl
  rw [h]
  simp [List.isPrefixOf]

theorem isAtomRecord_remark1 (src : String) :
    isAtomRecord ("REMARK Weights from source mer " ++ src ++
      " are stored in the temperature factor column.") = false := by
  rw [isAtomRecord]
  have h : ("REMARK Weights from source mer " ++ src ++
      " are stored in the temperature factor column.").data =
      'R' :: ("EMARK Weights from source mer ".data ++ src.data ++
        " are stored in the temperature factor column.".data) := by
    rw [str_data_append, str_data_append]
    rfl
  rw [h]
  simp [List.isPrefixOf]

theorem isAtomRecord_renderMerLine (mers : Mers) (mer : String) (w : Option ℚ) :
    isAtomRecord (renderMerLine mers mer w) = true := by
  unfold renderMerLine
  exact isAtomRecord_atom_prefix _

theorem countP_takeWhile_not (p : String → Bool) (l : List String) :
    (l.takeWhile fun x => !p x).countP p = 0 := by
  induction l with
  | nil => rfl
  | cons a t ih =>
    cases hp : p a
    · simp [List.takeWhile_cons, List.countP_cons, hp, ih]
    · simp [List.takeWhile_cons, hp]

/-- C1 (amended).  The annotated output of `generate_enhanced_pdb` contains
none of the original atom-record lines: it consists of the pre-atom header
lines, two `REMARK` lines, a blank line, and exactly one synthesised `ATOM`
(CA centre-of-mass) line per entry of the supplied distance map, so its
number of atom-record lines equals the number of entries of the distance
map — not the number of atom-record lines of the input. -/
theorem claim_C1 (weights : List (String × Option ℚ)) (source_mer : String)
    (original_lines : List String) (mers : Mers) :
    countAtomRecordLines (generate_enhanced_pdb weights source_mer original_lines mers) =
      weights.length := by
  rw [generate_enhanced_pdb, countAtomRecordLines]
  rw [List.append_assoc, List.countP_append, List.countP_append]
  rw [countP_takeWhile_not]
  have h2 : List.countP (fun line => isAtomRecord line)
      ["REMARK Weights from source mer " ++ source_mer ++
         " are stored in the temperature factor column.",
       "REMARK Other fields such as atom ID, charge, and occupancy may be placeholders.",
       ""] = 0 := by
    rw [List.countP_cons, List.countP_cons, List.countP_cons]
    rw [isAtomRecord_remark1]
    rfl
  rw [h2]
  have h3 : List.countP (fun line => isAtomRecord line)
      (weights.map fun p => renderMerLine mers p.1 p.2) = weights.length := by
    rw [List.countP_map, List.countP_eq_length]
    intro a _
    exact isAtomRecord_renderMerLine mers a.1 a.2
  simpa using h3

/-- Fixture: two residues with two atoms each (four atom-record lines). -/
def exm2A1 : String := "ATOM      1  N   GLY A   1       0.000   0.000   0.000  1.00  0.00"

def exm2A2 : String := "ATOM      2  CA  GLY A   1       1.000   0.000   0.000  1.00  0.00"

def exm2B1 : String := "ATOM      3  N   ALA A   2       2.000   0.000   0.000  1.00  0.00"

def exm2B2 : String := "ATOM      4  CA  ALA A   2       3.000   0.000   0.000  1.00  0.00"

/-- C1 counterexample.  On a four-atom-line structure with two residues and
a two-entry distance map for source `GLY-1(A)` (its own distance 0 and one
neighbour distance, the shape `dijkstra` returns for any valid source), the
annotated output holds 2 atom-record lines while the input holds 4, and none
of the four original atom-record lines occurs in the output: the original
atom records are not reproduced at all, let alone exactly once with one
column changed. -/
theorem claim_C1_cex :
    countAtomRecordLines
        (generate_enhanced_pdb [("GLY-1(A)", some 0), ("ALA-2(A)", some 1)] "GLY-1(A)"
          [exm2A1, exm2A2, exm2B1, exm2B2] (parse_atoms [exm2A1, exm2A2, exm2B1, exm2B2])) = 2 ∧
      countAtomRecordLines [exm2A1, exm2A2, exm2B1, exm2B2] = 4 ∧
      (generate_enhanced_pdb [("GLY-1(A)", some 0), ("ALA-2(A)", some 1)] "GLY-1(A)"
          [exm2A1, exm2A2, exm2B1, exm2B2]
          (parse_atoms [exm2A1, exm2A2, exm2B1, exm2B2])).all
        (fun line => decide (line ≠ exm2A1) && decide (line ≠ exm2A2) &&
          decide (line ≠ exm2B1) && decide (line ≠ exm2B2)) = true := by
  refine ⟨?_, ?_, ?_⟩
  · with_unfolding_all rfl
  · with_unfolding_all rfl
  · with_unfolding_all rfl

/-- Adjacency map used to exercise the path-consistency property: one edge
of weight 1 between the two fixture residues (the map `build_adjacency_map`
was meant to produce for them). -/
def cAdjC3 : Adj :=
  [("GLY-1(A)", [("ALA-2(A)", 1)]), ("ALA-2(A)", [("GLY-1(A)", 1)])]

/-- C3 (code bug).  For the two bonded fixture residues, dijkstra computes
the finite shortest-path distance 1 and reconstructs the path
`[GLY-1(A), ALA-2(A)]`, but `sum_weights_along_path` over the interactions
`calculate_interactions` built for the same structure raises
`AttributeError` at `total_weight += interaction.weight` — `Interaction`
defines `affinity` but no `weight` attribute — so the claimed equality
between the path weight sum and the dijkstra distance is unattainable. -/
theorem claim_C3 :
    dGet (dijkstra cAdjC3 "GLY-1(A)").1 "ALA-2(A)" = some 1 ∧
      reconstruct_path (dijkstra cAdjC3 "GLY-1(A)").2 "ALA-2(A)" =
        some ["GLY-1(A)", "ALA-2(A)"] ∧
      sum_weights_along_path (calculate_interactions (parse_atoms [exlA, exlB])).1
        (calculate_interactions (parse_atoms [exlA, exlB])).2
        ["GLY-1(A)", "ALA-2(A)"] = Except.error PyErr.attributeErrorWeight := by
  refine ⟨?_, ?_, ?_⟩
  · with_unfolding_all rfl
  · with_unfolding_all rfl
  · with_unfolding_all rfl

theorem foldMin_spec (total : String → ℚ) :
    ∀ (ks S : List String) (st : Option String × Option ℚ),
      ((st = (none, none) ∧ S = []) ∨
        (∃ b t, st = (some b, some t) ∧ b ∈ S ∧ t = total b ∧ ∀ m ∈ S, t ≤ total m)) →
      ((ks.foldl (fun st source_mer =>
          if distLt (some (total source_mer)) st.2 then (some source_mer, some (total source_mer))
          else st) st = (none, none) ∧ S ++ ks = []) ∨
        (∃ b t, ks.foldl (fun st source_mer =>
            if distLt (some (total source_mer)) st.2 then
              (some source_mer, some (total source_mer))
            else st) st = (some b, some t) ∧ b ∈ S ++ ks ∧ t = total b ∧
          ∀ m ∈ S ++ ks, t ≤ total m)) := by
  intro ks
  induction ks with
  | nil =>
    intro S st h
    simpa using h
  | cons k t ih =>
    intro S st h
    rw [List.foldl_cons]
    have hstep :
        ((if distLt (some (total k)) st.2 then (some k, some (total k)) else st) =
            (none, none) ∧ S ++ [k] = []) ∨
          (∃ b tt, (if distLt (some (total k)) st.2 then (some k, some (total k)) else st) =
              (some b, some tt) ∧ b ∈ S ++ [k] ∧ tt = total b ∧
            ∀ m ∈ S ++ [k], tt ≤ total m) := by
      rcases h with ⟨hst, hS⟩ | ⟨b, tb, hst, hb, htb, hmin⟩
      · subst hst hS
        right
        refine ⟨k, total k, ?_, by simp, rfl, ?_⟩
        · rw [if_pos]
          rfl
        · intro m hm
          simp at hm
          subst hm
          exact le_refl _
      · subst hst
        right
        by_cases hlt : distLt (some (total k)) (some tb) = true
        · refine ⟨k, total k, ?_, by simp, rfl, ?_⟩
          · rw [if_pos hlt]
          · intro m hm
            rw [distLt] at hlt
            have hklt : total k < tb := of_decide_eq_true hlt
            rcases List.mem_append.1 hm with hm | hm
            · exact le_of_lt (lt_of_lt_of_le hklt (htb ▸ hmin m hm))
            · simp at hm
              subst hm
              exact le_refl _
        · refine ⟨b, tb, ?_, List.mem_append_left _ hb, htb, ?_⟩
          · rw [if_neg hlt]
          · intro m hm
            rcases List.mem_append.1 hm with hm | hm
            · exact hmin m hm
            · simp at hm
              rw [hm]
              rw [distLt] at hlt
              have hnlt : ¬ (total k < tb) := by
                intro hc
                exact hlt (by simpa using hc)
              exact le_of_not_lt hnlt
    have := ih (S ++ [k]) _ hstep
    simpa [List.append_assoc] using this

/-- C6.  On every nonempty adjacency map, `find_best_source_mer` returns a
node of the map whose total distance — the sum over the finite entries of
its dijkstra distance map, unreachable entries contributing zero — is less
than or equal to the total distance of every other node of the map. -/
theorem claim_C6 (mers : Mers) (adjacency_map : Adj) (h : adjacency_map ≠ []) :
    ∃ best, find_best_source_mer mers adjacency_map = some best ∧
      best ∈ dictKeys adjacency_map ∧
      ∀ m ∈ dictKeys adjacency_map,
        sumFiniteDistances (dijkstra adjacency_map best).1 ≤
          sumFiniteDistances (dijkstra adjacency_map m).1 := by
  rw [find_best_source_mer]
  have heq :
      (fun (st : Option String × Option ℚ) source_mer =>
        let (_, min_total_distance) := st
        let dist := (dijkstra adjacency_map source_mer).1
        let total_distance := sumFiniteDistances dist
        if distLt (some total_distance) min_total_distance then
          (some source_mer, some total_distance)
        else st) =
      (fun (st : Option String × Option ℚ) source_mer =>
        if distLt (some (sumFiniteDistances (dijkstra adjacency_map source_mer).1)) st.2 then
          (some source_mer, some (sumFiniteDistances (dijkstra adjacency_map source_mer).1))
        else st) := by
    funext st s
    rcases st with ⟨a, b⟩
    rfl
  rw [heq]
  have := foldMin_spec (fun s => sumFiniteDistances (dijkstra adjacency_map s).1)
    (dictKeys adjacency_map) [] (none, none) (Or.inl ⟨rfl, rfl⟩)
  rcases this with ⟨_, hnil⟩ | ⟨b, t, hres, hb, htb, hmin⟩
  · exfalso
    apply h
    rw [List.nil_append] at hnil
    cases adjacency_map with
    | nil => rfl
    | cons q l => simp [dictKeys] at hnil
  · rw [List.nil_append] at hb hmin
    refine ⟨b, ?_, hb, ?_⟩
    · rw [hres]
    · intro m hm
      have h2 := hmin m hm
      rw [htb] at h2
      simpa using h2

/-- C6 witness: on a concrete four-node, two-component adjacency map the
chosen best source is a node of the map with minimal total finite distance
(the fixture also exercises the unreachable-contributes-zero clause). -/
theorem claim_C6_witness :
    ∃ best, find_best_source_mer []
        [("A", [("B", 1)]), ("B", [("A", 1)]), ("C", [("D", 2)]), ("D", [("C", 2)])] =
        some best ∧
      best ∈ dictKeys
        [("A", [("B", (1 : ℚ))]), ("B", [("A", 1)]), ("C", [("D", 2)]), ("D", [("C", 2)])] ∧
      ∀ m ∈ dictKeys
        [("A", [("B", (1 : ℚ))]), ("B", [("A", 1)]), ("C", [("D", 2)]), ("D", [("C", 2)])],
        sumFiniteDistances (dijkstra
          [("A", [("B", 1)]), ("B", [("A", 1)]), ("C", [("D", 2)]), ("D", [("C", 2)])] best).1 ≤
        sumFiniteDistances (dijkstra
          [("A", [("B", 1)]), ("B", [("A", 1)]), ("C", [("D", 2)]), ("D", [("C", 2)])] m).1 :=
  claim_C6 [] _ (by simp)

theorem dictGet?_dictSet_self {α β : Type} [DecidableEq α] (d : List (α × β)) (k : α) (v : β) :
    dictGet? (dictSet d k v) k = some v := by
  induction d with
  | nil => simp [dictSet, dictGet?]
  | cons q t ih =>
    obtain ⟨k', v'⟩ := q
    rw [dictSet]
    by_cases he : k' = k
    · rw [if_pos he, dictGet?, if_pos he]
    · rw [if_neg he, dictGet?, if_neg he]
      exact ih

theorem dictGet?_dictSet_other {α β : Type} [DecidableEq α] (d : List (α × β)) (k k' : α)
    (v : β) (h : k' ≠ k) : dictGet? (dictSet d k v) k' = dictGet? d k' := by
  induction d with
  | nil =>
    rw [dictSet]
    simp only [dictGet?]
    rw [if_neg (fun hc : k = k' => h hc.symm)]
  | cons q t ih =>
    obtain ⟨k0, v0⟩ := q
    rw [dictSet]
    by_cases he : k0 = k
    · subst he
      rw [if_pos rfl, dictGet?, dictGet?, if_neg (fun hc => h hc.symm), if_neg (fun hc => h hc.symm)]
    · rw [if_neg he, dictGet?, dictGet?]
      by_cases h0 : k0 = k'
      · rw [if_pos h0, if_pos h0]
      · rw [if_neg h0, if_neg h0]
        exact ih

/-- Name-and-atoms skeleton of a mer-object list; bond counting never
changes it. -/
def skel (l : List Mer) : List (String × List Atom) :=
  l.map fun m => (m.name, m.atoms)

theorem Mer.add_bond_name (m : Mer) (b : String) : (m.add_bond b).name = m.name := rfl

theorem Mer.add_bond_atoms (m : Mer) (b : String) : (m.add_bond b).atoms = m.atoms := rfl

theorem bumpBond_skel (l : List Mer) (a b : String) : skel (bumpBond l a b) = skel l := by
  rw [skel, bumpBond, List.map_map, skel]
  apply List.map_congr_left
  intro m _
  by_cases he : m.name = a
  · simp [he, Mer.add_bond_name, Mer.add_bond_atoms]
  · simp [he]

/-- Name of the mer at an index. -/
def nameAt (l : List Mer) (i : Nat) : String :=
  (merListAt l i).name

/-- Index-level 4.5-bonding on a fixed reference list. -/
def bonded45Idx (l : List Mer) (i j : Nat) : Bool :=
  anyPairCloser45 (merListAt l i) (merListAt l j)

/-- Index-level 4.0-bonding on a fixed reference list. -/
def bonded40Idx (l : List Mer) (i j : Nat) : Bool :=
  anyPairWithin40 (merListAt l i) (merListAt l j)

theorem skel_length (l l' : List Mer) (h : skel l' = skel l) : l'.length = l.length := by
  have := congrArg List.length h
  simpa [skel] using this

theorem skel_fields (l l' : List Mer) (h : skel l' = skel l) (i : Nat) :
    nameAt l' i = nameAt l i ∧ (merListAt l' i).atoms = (merListAt l i).atoms := by
  have hlen := skel_length l l' h
  have h1 : (skel l')[i]? = (skel l)[i]? := by rw [h]
  rw [skel, skel, List.getElem?_map, List.getElem?_map] at h1
  by_cases hi : i < l.length
  · have hi' : i < l'.length := by omega
    cases hg : l[i]? with
    | none =>
      exfalso
      rw [List.getElem?_eq_none_iff] at hg
      omega
    | some m =>
      cases hg' : l'[i]? with
      | none =>
        exfalso
        rw [List.getElem?_eq_none_iff] at hg'
        omega
      | some m' =>
        rw [hg, hg'] at h1
        have h2 : (m'.name, m'.atoms) = (m.name, m.atoms) := by simpa using h1
        have e1 : merListAt l i = m := by
          rw [merListAt, List.getD_eq_getElem?_getD, hg]
          rfl
        have e2 : merListAt l' i = m' := by
          rw [merListAt, List.getD_eq_getElem?_getD, hg']
          rfl
        rw [nameAt, nameAt, e1, e2]
        exact ⟨congrArg Prod.fst h2, congrArg Prod.snd h2⟩
  · have e1 : merListAt l i = default := by
      rw [merListAt, List.getD_eq_getElem?_getD, List.getElem?_eq_none (by omega)]
      rfl
    have e2 : merListAt l' i = default := by
      rw [merListAt, List.getD_eq_getElem?_getD, List.getElem?_eq_none (by omega)]
      rfl
    rw [nameAt, nameAt, e1, e2]
    exact ⟨rfl, rfl⟩

theorem anyPairCloser45_atoms (src dst src' dst' : Mer)
    (h1 : src'.atoms = src.atoms) (h2 : dst'.atoms = dst.atoms) :
    anyPairCloser45 src' dst' = anyPairCloser45 src dst := by
  rw [anyPairCloser45, anyPairCloser45, h1, h2]

theorem anyPairWithin40_atoms (src dst src' dst' : Mer)
    (h1 : src'.atoms = src.atoms) (h2 : dst'.atoms = dst.atoms) :
    anyPairWithin40 src' dst' = anyPairWithin40 src dst := by
  rw [anyPairWithin40, anyPairWithin40, h1, h2]

/-- Bond counter of the (first) mer named `a` toward the mer named `b`. -/
def bondCountOf (l : List Mer) (a b : String) : Nat :=
  match l.find? (fun m => m.name == a) with
  | some m => dictGetD m.bond_count (PyKey.pmer b) 0
  | none => 0

theorem Mer.add_bond_bond_count (m : Mer) (b : String) :
    (m.add_bond b).bond_count =
      dictSet m.bond_count (PyKey.pmer b) (dictGetD m.bond_count (PyKey.pmer b) 0 + 1) := rfl

theorem find?_bumpBond (l : List Mer) (a b x : String) :
    (bumpBond l a b).find? (fun m => m.name == x) =
      (l.find? (fun m => m.name == x)).map (fun m => if m.name = a then m.add_bond b else m) := by
  induction l with
  | nil => rfl
  | cons m t ih =>
    rw [bumpBond, List.map_cons]
    have hname : (if m.name = a then m.add_bond b else m).name = m.name := by
      by_cases he : m.name = a <;> simp [he, Mer.add_bond_name]
    simp only [List.find?, hname]
    cases hp : (m.name == x) with
    | true => rfl
    | false => exact ih

theorem bondCountOf_bumpBond (l : List Mer) (a b x y : String) :
    bondCountOf (bumpBond l a b) x y =
      bondCountOf l x y +
        (if x = a ∧ y = b ∧ (l.find? (fun m => m.name == x)).isSome then 1 else 0) := by
  rw [bondCountOf, bondCountOf, find?_bumpBond]
  cases hf : l.find? (fun m => m.name == x) with
  | none => simp
  | some m =>
    have hmx : m.name = x := by
      have := List.find?_some hf
      simpa using this
    simp only [Option.map_some']
    by_cases hxa : x = a
    · rw [if_pos (by rw [hmx]; exact hxa)]
      by_cases hyb : y = b
      · subst hyb
        rw [Mer.add_bond_bond_count, dictGetD, dictGet?_dictSet_self]
        simp [hf, hxa, dictGetD]
      · rw [Mer.add_bond_bond_count, dictGetD,
          dictGet?_dictSet_other _ _ _ _ (by intro hc; exact hyb (PyKey.pmer.inj hc))]
        simp [hyb, dictGetD]
    · rw [if_neg (by rw [hmx]; exact hxa)]
      simp [hxa]

theorem names_eq_of_skel (l0 l : List Mer) (h : skel l = skel l0) :
    l.map Mer.name = l0.map Mer.name := by
  have h1 := congrArg (List.map Prod.fst) h
  simpa [skel, List.map_map, Function.comp] using h1

theorem merListAt_mem (l : List Mer) (i : Nat) (h : i < l.length) : merListAt l i ∈ l := by
  rw [merListAt, List.getD_eq_getElem?_getD, List.getElem?_eq_getElem h]
  exact List.getElem_mem h

theorem find?_isSome_of_name_mem (l : List Mer) (a : String) (h : a ∈ l.map Mer.name) :
    (l.find? (fun m => m.name == a)).isSome = true := by
  obtain ⟨m, hm, hname⟩ := List.mem_map.1 h
  rw [List.find?_isSome]
  exact ⟨m, hm, by simp [hname]⟩

theorem bondCountOf_bumpBond_present (l : List Mer) (a b x y : String)
    (hpres : a ∈ l.map Mer.name) :
    bondCountOf (bumpBond l a b) x y = bondCountOf l x y + (if x = a ∧ y = b then 1 else 0) := by
  rw [bondCountOf_bumpBond]
  by_cases hxy : x = a ∧ y = b
  · rw [if_pos hxy, if_pos ⟨hxy.1, hxy.2, by rw [hxy.1]; exact find?_isSome_of_name_mem l a hpres⟩]
  · rw [if_neg hxy, if_neg (fun hc => hxy ⟨hc.1, hc.2.1⟩)]

/-- Contribution of one visited index pair to the bond counter `(A, B)`:
both orders bump when the pair is bonded. -/
def contribCount (bnd : Nat → Nat → Bool) (nm : Nat → String) (A B : String)
    (p : Nat × Nat) : Nat :=
  if bnd p.1 p.2 then
    (if A = nm p.1 ∧ B = nm p.2 then 1 else 0) + (if A = nm p.2 ∧ B = nm p.1 then 1 else 0)
  else 0

theorem bumpPair_bondCountOf (l0 l : List Mer) (hsk : skel l = skel l0)
    (i j : Nat) (hi : i < l0.length) (hj : j < l0.length) (A B : String) :
    bondCountOf (bumpBond (bumpBond l (merListAt l i).name (merListAt l j).name)
        (merListAt l j).name (merListAt l i).name) A B =
      bondCountOf l A B +
        ((if A = nameAt l0 i ∧ B = nameAt l0 j then 1 else 0) +
          (if A = nameAt l0 j ∧ B = nameAt l0 i then 1 else 0)) := by
  have hlen : l.length = l0.length := skel_length l0 l hsk
  have hni : (merListAt l i).name = nameAt l0 i := (skel_fields l0 l hsk i).1
  have hnj : (merListAt l j).name = nameAt l0 j := (skel_fields l0 l hsk j).1
  have hmemi : (merListAt l i).name ∈ l.map Mer.name :=
    List.mem_map_of_mem Mer.name (merListAt_mem l i (by omega))
  have hmemj : (merListAt l j).name ∈ l.map Mer.name :=
    List.mem_map_of_mem Mer.name (merListAt_mem l j (by omega))
  have hmemj' : (merListAt l j).name ∈ (bumpBond l (merListAt l i).name (merListAt l j).name).map Mer.name := by
    rw [names_eq_of_skel l _ (bumpBond_skel l _ _)]
    exact hmemj
  rw [bondCountOf_bumpBond_present _ _ _ _ _ hmemj',
    bondCountOf_bumpBond_present _ _ _ _ _ hmemi, hni, hnj]
  omega

theorem interactStep1_spec (l0 l : List Mer) (hsk : skel l = skel l0)
    (p : Nat × Nat) (hp1 : p.1 < l0.length) (hp2 : p.2 < l0.length) :
    skel (interactStep1 l p) = skel l0 ∧
      ∀ A B, bondCountOf (interactStep1 l p) A B =
        bondCountOf l A B + contribCount (bonded45Idx l0) (nameAt l0) A B p := by
  obtain ⟨i, j⟩ := p
  have hatoms_i := (skel_fields l0 l hsk i).2
  have hatoms_j := (skel_fields l0 l hsk j).2
  have hbnd : anyPairCloser45 (merListAt l i) (merListAt l j) = bonded45Idx l0 i j :=
    anyPairCloser45_atoms _ _ _ _ hatoms_i hatoms_j
  rw [interactStep1]
  dsimp only
  by_cases hb : anyPairCloser45 (merListAt l i) (merListAt l j) = true
  · rw [if_pos hb]
    constructor
    · rw [bumpBond_skel, bumpBond_skel]
      exact hsk
    · intro A B
      rw [bumpPair_bondCountOf l0 l hsk i j hp1 hp2 A B]
      rw [contribCount]
      dsimp only
      rw [← hbnd, if_pos hb]
  · rw [if_neg hb]
    refine ⟨hsk, fun A B => ?_⟩
    rw [contribCount]
    dsimp only
    rw [← hbnd, if_neg hb]
    omega

theorem phase1_fold_spec (l0 : List Mer) (ps : List (Nat × Nat)) :
    ∀ (l : List Mer), skel l = skel l0 →
      (∀ p ∈ ps, p.1 < l0.length ∧ p.2 < l0.length) →
      skel (ps.foldl interactStep1 l) = skel l0 ∧
      ∀ A B, bondCountOf (ps.foldl interactStep1 l) A B =
        bondCountOf l A B +
          (ps.map (contribCount (bonded45Idx l0) (nameAt l0) A B)).sum := by
  induction ps with
  | nil =>
    intro l hsk _
    exact ⟨hsk, fun A B => by simp⟩
  | cons p t ih =>
    intro l hsk hps
    have hp := hps p (List.mem_cons_self _ _)
    obtain ⟨hsk1, hcnt1⟩ := interactStep1_spec l0 l hsk p hp.1 hp.2
    obtain ⟨hsk2, hcnt2⟩ := ih (interactStep1 l p) hsk1
      (fun q hq => hps q (List.mem_cons_of_mem _ hq))
    rw [List.foldl_cons]
    refine ⟨hsk2, fun A B => ?_⟩
    rw [hcnt2 A B, hcnt1 A B, List.map_cons, List.sum_cons]
    omega

/-- One `Interaction` covers the unordered residue pair `(A, B)`. -/
def matchesPair (A B : String) (it : Interaction) : Bool :=
  (it.from_mer == A && it.to_mer == B) || (it.from_mer == B && it.to_mer == A)

/-- Contribution of one visited `i < j` index pair to the number of
interactions covering `(A, B)`. -/
def contribInter (bnd : Nat → Nat → Bool) (nm : Nat → String) (A B : String)
    (p : Nat × Nat) : Nat :=
  if bnd p.1 p.2 then
    if (nm p.1 = A ∧ nm p.2 = B) ∨ (nm p.1 = B ∧ nm p.2 = A) then 1 else 0
  else 0

theorem mkInteraction_from_mer (src dst : Mer) : (mkInteraction src dst).from_mer = src.name := rfl

theorem mkInteraction_to_mer (src dst : Mer) : (mkInteraction src dst).to_mer = dst.name := rfl

theorem interactStep2_spec (l0 : List Mer) (st : List Mer × List Interaction)
    (hsk : skel st.1 = skel l0) (p : Nat × Nat)
    (hp1 : p.1 < l0.length) (hp2 : p.2 < l0.length) :
    skel (interactStep2 st p).1 = skel l0 ∧
      (∀ A B, bondCountOf (interactStep2 st p).1 A B =
        bondCountOf st.1 A B + contribCount (bonded40Idx l0) (nameAt l0) A B p) ∧
      (∀ A B, ((interactStep2 st p).2.countP (matchesPair A B)) =
        st.2.countP (matchesPair A B) + contribInter (bonded40Idx l0) (nameAt l0) A B p) := by
  obtain ⟨l, inters⟩ := st
  obtain ⟨i, j⟩ := p
  dsimp only at hsk
  have hatoms_i := (skel_fields l0 l hsk i).2
  have hatoms_j := (skel_fields l0 l hsk j).2
  have hni : (merListAt l i).name = nameAt l0 i := (skel_fields l0 l hsk i).1
  have hnj : (merListAt l j).name = nameAt l0 j := (skel_fields l0 l hsk j).1
  have hbnd : anyPairWithin40 (merListAt l i) (merListAt l j) = bonded40Idx l0 i j :=
    anyPairWithin40_atoms _ _ _ _ hatoms_i hatoms_j
  rw [interactStep2]
  dsimp only
  by_cases hb : anyPairWithin40 (merListAt l i) (merListAt l j) = true
  · rw [if_pos hb]
    have hsk' : skel (bumpBond (bumpBond l (merListAt l i).name (merListAt l j).name)
        (merListAt l j).name (merListAt l i).name) = skel l0 := by
      rw [bumpBond_skel, bumpBond_skel]
      exact hsk
    refine ⟨hsk', fun A B => ?_, fun A B => ?_⟩
    · rw [bumpPair_bondCountOf l0 l hsk i j hp1 hp2 A B]
      rw [contribCount]
      dsimp only
      rw [← hbnd, if_pos hb]
    · rw [List.countP_append]
      rw [contribInter]
      dsimp only
      rw [← hbnd, if_pos hb]
      have hfrom : (merListAt (bumpBond (bumpBond l (merListAt l i).name (merListAt l j).name)
          (merListAt l j).name (merListAt l i).name) i).name = nameAt l0 i :=
        (skel_fields l0 _ hsk' i).1
      have hto : (merListAt (bumpBond (bumpBond l (merListAt l i).name (merListAt l j).name)
          (merListAt l j).name (merListAt l i).name) j).name = nameAt l0 j :=
        (skel_fields l0 _ hsk' j).1
      have hone : List.countP (matchesPair A B)
          [mkInteraction
            (merListAt (bumpBond (bumpBond l (merListAt l i).name (merListAt l j).name)
              (merListAt l j).name (merListAt l i).name) i)
            (merListAt (bumpBond (bumpBond l (merListAt l i).name (merListAt l j).name)
              (merListAt l j).name (merListAt l i).name) j)] =
          if (nameAt l0 i = A ∧ nameAt l0 j = B) ∨ (nameAt l0 i = B ∧ nameAt l0 j = A)
          then 1 else 0 := by
        rw [List.countP_cons, List.countP_nil]
        rw [matchesPair, mkInteraction_from_mer, mkInteraction_to_mer, hfrom, hto]
        by_cases hm : (nameAt l0 i = A ∧ nameAt l0 j = B) ∨ (nameAt l0 i = B ∧ nameAt l0 j = A)
        · rw [if_pos hm]
          rcases hm with ⟨h1, h2⟩ | ⟨h1, h2⟩ <;> simp [h1, h2]
        · rw [if_neg hm]
          have hcond : ((nameAt l0 i == A && nameAt l0 j == B) ||
              (nameAt l0 i == B && nameAt l0 j == A)) = false := by
            rw [Bool.eq_false_iff]
            intro hc
            apply hm
            rcases (Bool.or_eq_true _ _) ▸ hc with h | h
            · left
              rw [Bool.and_eq_true, beq_iff_eq, beq_iff_eq] at h
              exact h
            · right
              rw [Bool.and_eq_true, beq_iff_eq, beq_iff_eq] at h
              exact h
          rw [hcond]
          rfl
      rw [hone]
  · rw [if_neg hb]
    refine ⟨hsk, fun A B => ?_, fun A B => ?_⟩
    · rw [contribCount]
      dsimp only
      rw [← hbnd, if_neg hb]
      omega
    · rw [contribInter]
      dsimp only
      rw [← hbnd, if_neg hb]
      omega

theorem phase2_fold_spec (l0 : List Mer) (ps : List (Nat × Nat)) :
    ∀ (st : List Mer × List Interaction), skel st.1 = skel l0 →
      (∀ p ∈ ps, p.1 < l0.length ∧ p.2 < l0.length) →
      skel ((ps.foldl interactStep2 st).1) = skel l0 ∧
      (∀ A B, bondCountOf ((ps.foldl interactStep2 st).1) A B =
        bondCountOf st.1 A B +
          (ps.map (contribCount (bonded40Idx l0) (nameAt l0) A B)).sum) ∧
      (∀ A B, (((ps.foldl interactStep2 st).2).countP (matchesPair A B)) =
        st.2.countP (matchesPair A B) +
          (ps.map (contribInter (bonded40Idx l0) (nameAt l0) A B)).sum) := by
  induction ps with
  | nil =>
    intro st hsk _
    exact ⟨hsk, fun A B => by simp, fun A B => by simp⟩
  | cons p t ih =>
    intro st hsk hps
    have hp := hps p (List.mem_cons_self _ _)
    obtain ⟨hsk1, hcnt1, hint1⟩ := interactStep2_spec l0 st hsk p hp.1 hp.2
    obtain ⟨hsk2, hcnt2, hint2⟩ := ih (interactStep2 st p) hsk1
      (fun q hq => hps q (List.mem_cons_of_mem _ hq))
    rw [List.foldl_cons]
    refine ⟨hsk2, fun A B => ?_, fun A B => ?_⟩
    · rw [hcnt2 A B, hcnt1 A B, List.map_cons, List.sum_cons]
      omega
    · rw [hint2 A B, hint1 A B, List.map_cons, List.sum_cons]
      omega

theorem count_range_nat (n x : Nat) : (List.range n).count x = if x < n then 1 else 0 := by
  by_cases h : x < n
  · rw [if_pos h]
    have h1 := List.nodup_iff_count_le_one.1 (List.nodup_range n) x
    have h2 := List.count_pos_iff.2 (List.mem_range.2 h)
    omega
  · rw [if_neg h, List.count_eq_zero]
    intro hc
    exact h (List.mem_range.1 hc)

theorem count_flatMap_nat {α β : Type} [BEq β] [LawfulBEq β] (l : List α) (f : α → List β) (x : β) :
    ((l.flatMap f).count x) = (l.map (fun a => (f a).count x)).sum := by
  induction l with
  | nil => rfl
  | cons a t ih =>
    rw [List.flatMap_cons, List.count_append, List.map_cons, List.sum_cons, ih]

theorem sum_map_support_one {α : Type} [BEq α] [LawfulBEq α] (ps : List α) (f : α → Nat) (x : α)
    (h0 : ∀ p ∈ ps, p ≠ x → f p = 0) :
    (ps.map f).sum = f x * ps.count x := by
  induction ps with
  | nil => simp
  | cons p t ih =>
    rw [List.map_cons, List.sum_cons, ih (fun q hq hqx => h0 q (List.mem_cons_of_mem _ hq) hqx)]
    by_cases he : p = x
    · subst he
      rw [List.count_cons_self, Nat.mul_succ]
      omega
    · rw [h0 p (List.mem_cons_self _ _) he, List.count_cons_of_ne (fun hc => he hc.symm)]
      omega

theorem sum_map_support_pair {α : Type} [BEq α] [LawfulBEq α] (ps : List α) (f : α → Nat) (x y : α)
    (hxy : x ≠ y) (h0 : ∀ p ∈ ps, p ≠ x → p ≠ y → f p = 0) :
    (ps.map f).sum = f x * ps.count x + f y * ps.count y := by
  induction ps with
  | nil => simp
  | cons p t ih =>
    rw [List.map_cons, List.sum_cons,
      ih (fun q hq hqx hqy => h0 q (List.mem_cons_of_mem _ hq) hqx hqy)]
    by_cases hex : p = x
    · subst hex
      rw [List.count_cons_self, List.count_cons_of_ne (fun hc => hxy hc.symm), Nat.mul_succ]
      omega
    · by_cases hey : p = y
      · subst hey
        rw [List.count_cons_self, List.count_cons_of_ne hxy, Nat.mul_succ]
        omega
      · rw [h0 p (List.mem_cons_self _ _) hex hey,
          List.count_cons_of_ne (fun hc => hex hc.symm),
          List.count_cons_of_ne (fun hc => hey hc.symm)]
        omega

theorem count_map_inj {α β : Type} [BEq α] [LawfulBEq α] [BEq β] [LawfulBEq β]
    (l : List α) (f : α → β) (hinj : Function.Injective f) (x : α) :
    (l.map f).count (f x) = l.count x := by
  induction l with
  | nil => rfl
  | cons a t ih =>
    rw [List.map_cons]
    by_cases he : a = x
    · subst he
      rw [List.count_cons_self, List.count_cons_self, ih]
    · rw [List.count_cons_of_ne (fun hc => he (hinj hc).symm),
        List.count_cons_of_ne (fun hc => he hc.symm), ih]

theorem count_orderedPairs (n i j : Nat) :
    (orderedPairs n).count (i, j) = if i < n ∧ j < n ∧ j ≠ i then 1 else 0 := by
  rw [orderedPairs, count_flatMap_nat]
  have hblock : ∀ a : Nat,
      ((((List.range n).filter fun j' => j' != a).map fun j' => (a, j')).count (i, j)) =
      if a = i then (((List.range n).filter fun j' => j' != i).count j) else 0 := by
    intro a
    by_cases ha : a = i
    · subst ha
      rw [if_pos rfl]
      have hinj : Function.Injective (fun j' => ((a, j') : Nat × Nat)) := by
        intro u v huv
        simpa using huv
      exact count_map_inj _ _ hinj j
    · rw [if_neg ha, List.count_eq_zero]
      intro hc
      obtain ⟨b, _, hb2⟩ := List.mem_map.1 hc
      exact ha (congrArg Prod.fst hb2)
  have h1 : ((List.range n).map fun a =>
      ((((List.range n).filter fun j' => j' != a).map fun j' => (a, j')).count (i, j))).sum =
      ((List.range n).map fun a =>
        (if a = i then (((List.range n).filter fun j' => j' != i).count j) else 0)).sum := by
    congr 1
    exact List.map_congr_left fun a _ => hblock a
  rw [h1, sum_map_support_one (List.range n) _ i (fun p _ hpi => if_neg hpi), if_pos rfl,
    count_range_nat]
  have hcf : (((List.range n).filter fun j' => j' != i).count j) =
      if j < n ∧ j ≠ i then 1 else 0 := by
    by_cases hj : j < n ∧ j ≠ i
    · rw [if_pos hj]
      have hmem : j ∈ (List.range n).filter (fun j' => j' != i) :=
        List.mem_filter.2 ⟨List.mem_range.2 hj.1, by simp [hj.2]⟩
      have hnd : ((List.range n).filter fun j' => j' != i).Nodup := (List.nodup_range n).filter _
      have hc1 := List.nodup_iff_count_le_one.1 hnd j
      have hc2 := List.count_pos_iff.2 hmem
      omega
    · rw [if_neg hj, List.count_eq_zero]
      intro hc
      have h3 := List.mem_filter.1 hc
      exact hj ⟨List.mem_range.1 h3.1, by simpa using h3.2⟩
  rw [hcf]
  by_cases hi : i < n
  · by_cases hj2 : j < n ∧ j ≠ i
    · rw [if_pos hj2, if_pos hi, if_pos ⟨hi, hj2.1, hj2.2⟩]
    · have h4 : ¬ (i < n ∧ j < n ∧ j ≠ i) := fun hc => hj2 ⟨hc.2.1, hc.2.2⟩
      rw [if_neg hj2, if_neg h4]
      simp
  · have h4 : ¬ (i < n ∧ j < n ∧ j ≠ i) := fun hc => hi hc.1
    rw [if_neg hi, if_neg h4]
    simp

theorem count_pairsLt (n i j : Nat) :
    (pairsLt n).count (i, j) = if i < j ∧ j < n then 1 else 0 := by
  rw [pairsLt, count_flatMap_nat]
  have hblock : ∀ a : Nat,
      (((List.range' (a + 1) (n - (a + 1))).map fun j' => (a, j')).count (i, j)) =
      if a = i then ((List.range' (i + 1) (n - (i + 1))).count j) else 0 := by
    intro a
    by_cases ha : a = i
    · subst ha
      rw [if_pos rfl]
      have hinj : Function.Injective (fun j' => ((a, j') : Nat × Nat)) := by
        intro u v huv
        simpa using huv
      exact count_map_inj _ _ hinj j
    · rw [if_neg ha, List.count_eq_zero]
      intro hc
      obtain ⟨b, _, hb2⟩ := List.mem_map.1 hc
      exact ha (congrArg Prod.fst hb2)
  have h1 : ((List.range n).map fun a =>
      (((List.range' (a + 1) (n - (a + 1))).map fun j' => (a, j')).count (i, j))).sum =
      ((List.range n).map fun a =>
        (if a = i then ((List.range' (i + 1) (n - (i + 1))).count j) else 0)).sum := by
    congr 1
    exact List.map_congr_left fun a _ => hblock a
  rw [h1, sum_map_support_one (List.range n) _ i (fun p _ hpi => if_neg hpi), if_pos rfl,
    count_range_nat]
  have hcr : ((List.range' (i + 1) (n - (i + 1))).count j) =
      if i + 1 ≤ j ∧ j < n then 1 else 0 := by
    by_cases hj : i + 1 ≤ j ∧ j < n
    · rw [if_pos hj]
      have hmem : j ∈ List.range' (i + 1) (n - (i + 1)) :=
        List.mem_range'_1.2 ⟨hj.1, by omega⟩
      have hnodup : (List.range' (i + 1) (n - (i + 1))).Nodup := List.nodup_range' _ _
      have hc1 := List.nodup_iff_count_le_one.1 hnodup j
      have hc2 := List.count_pos_iff.2 hmem
      omega
    · rw [if_neg hj, List.count_eq_zero]
      intro hc
      have h3 := List.mem_range'_1.1 hc
      exact hj ⟨h3.1, by omega⟩
  rw [hcr]
  by_cases hij : i < j ∧ j < n
  · have h4 : i + 1 ≤ j ∧ j < n := ⟨by omega, hij.2⟩
    have h5 : i < n := by omega
    rw [if_pos hij, if_pos h4, if_pos h5]
  · have h4 : ¬ (i + 1 ≤ j ∧ j < n) := fun hc => hij ⟨by omega, hc.2⟩
    rw [if_neg hij, if_neg h4]
    simp

theorem Location.distSq_comm (a b : Location) : a.distSq b = b.distSq a := by
  rw [Location.distSq, Location.distSq]
  ring

theorem anyPairCloser45_symm (m1 m2 : Mer) :
    anyPairCloser45 m1 m2 = anyPairCloser45 m2 m1 := by
  rw [Bool.eq_iff_iff, anyPairCloser45, anyPairCloser45]
  simp only [List.any_eq_true, decide_eq_true_eq]
  constructor
  · rintro ⟨a, ha, b, hb, h⟩
    exact ⟨b, hb, a, ha, by rwa [Location.distSq_comm]⟩
  · rintro ⟨a, ha, b, hb, h⟩
    exact ⟨b, hb, a, ha, by rwa [Location.distSq_comm]⟩

theorem anyPairWithin40_symm (m1 m2 : Mer) :
    anyPairWithin40 m1 m2 = anyPairWithin40 m2 m1 := by
  rw [Bool.eq_iff_iff, anyPairWithin40, anyPairWithin40]
  simp only [List.any_eq_true, decide_eq_true_eq]
  constructor
  · rintro ⟨a, ha, b, hb, h⟩
    exact ⟨b, hb, a, ha, by rwa [Location.distSq_comm]⟩
  · rintro ⟨a, ha, b, hb, h⟩
    exact ⟨b, hb, a, ha, by rwa [Location.distSq_comm]⟩

theorem within40_closer45 (m1 m2 : Mer) (h : anyPairWithin40 m1 m2 = true) :
    anyPairCloser45 m1 m2 = true := by
  rw [anyPairWithin40] at h
  rw [anyPairCloser45]
  simp only [List.any_eq_true, decide_eq_true_eq] at h ⊢
  obtain ⟨a, ha, b, hb, hd⟩ := h
  exact ⟨a, ha, b, hb, lt_of_le_of_lt hd (by norm_num)⟩

theorem merListAt_of_lt (l : List Mer) (i : Nat) (h : i < l.length) : merListAt l i = l[i] := by
  rw [merListAt, List.getD_eq_getElem?_getD, List.getElem?_eq_getElem h]
  rfl

theorem exists_index_of_name (l0 : List Mer) (A : String) (h : A ∈ l0.map Mer.name) :
    ∃ i, i < l0.length ∧ nameAt l0 i = A := by
  obtain ⟨m, hm, hname⟩ := List.mem_map.1 h
  obtain ⟨i, hi, hgi⟩ := List.mem_iff_getElem.1 hm
  exact ⟨i, hi, by rw [nameAt, merListAt_of_lt _ _ hi, hgi, hname]⟩

theorem nameAt_inj (l0 : List Mer) (hnd : (l0.map Mer.name).Nodup) (i j : Nat)
    (hi : i < l0.length) (hj : j < l0.length) (h : nameAt l0 i = nameAt l0 j) : i = j := by
  have hi' : i < (l0.map Mer.name).length := by simpa using hi
  have hj' : j < (l0.map Mer.name).length := by simpa using hj
  have he : (List.map Mer.name l0).get ⟨i, hi'⟩ = (List.map Mer.name l0).get ⟨j, hj'⟩ := by
    rw [List.get_eq_getElem, List.get_eq_getElem, List.getElem_map, List.getElem_map]
    rw [nameAt, nameAt, merListAt_of_lt _ _ hi, merListAt_of_lt _ _ hj] at h
    exact h
  have h2 := (List.Nodup.get_inj_iff hnd).1 he
  exact congrArg Fin.val h2

theorem find?_name_unique (l0 : List Mer) (hnd : (l0.map Mer.name).Nodup) (iA : Nat)
    (hiA : iA < l0.length) (A : String) (hA : nameAt l0 iA = A) :
    l0.find? (fun m => m.name == A) = some (merListAt l0 iA) := by
  cases hf : l0.find? (fun m => m.name == A) with
  | none =>
    exfalso
    have := List.find?_eq_none.1 hf (merListAt l0 iA) (merListAt_mem _ _ hiA)
    rw [nameAt] at hA
    simp [hA] at this
  | some m =>
    have hm := List.mem_of_find?_eq_some hf
    have hname : m.name = A := by simpa using List.find?_some hf
    obtain ⟨k, hk, hgk⟩ := List.mem_iff_getElem.1 hm
    have hkA : nameAt l0 k = A := by rw [nameAt, merListAt_of_lt _ _ hk, hgk, hname]
    have hk_eq : k = iA := nameAt_inj l0 hnd k iA hk hiA (by rw [hkA, hA])
    rw [← hgk, ← merListAt_of_lt _ _ hk, hk_eq]

/-- Name-level form of the 4.5-bond test (used by the first phase of
`calculate_interactions`). -/
def bondedCloser45 (l0 : List Mer) (A B : String) : Bool :=
  match l0.find? (fun m => m.name == A), l0.find? (fun m => m.name == B) with
  | some ma, some mb => anyPairCloser45 ma mb
  | _, _ => false

/-- Name-level form of `is_bonded_to`'s 4.0-bond test. -/
def bondedWithin40 (l0 : List Mer) (A B : String) : Bool :=
  match l0.find? (fun m => m.name == A), l0.find? (fun m => m.name == B) with
  | some ma, some mb => anyPairWithin40 ma mb
  | _, _ => false

theorem bondedCloser45_eq_idx (l0 : List Mer) (hnd : (l0.map Mer.name).Nodup)
    (A B : String) (iA iB : Nat) (hiA : iA < l0.length) (hiB : iB < l0.length)
    (hA : nameAt l0 iA = A) (hB : nameAt l0 iB = B) :
    bondedCloser45 l0 A B = bonded45Idx l0 iA iB := by
  rw [bondedCloser45, find?_name_unique l0 hnd iA hiA A hA, find?_name_unique l0 hnd iB hiB B hB]
  rfl

theorem bondedWithin40_eq_idx (l0 : List Mer) (hnd : (l0.map Mer.name).Nodup)
    (A B : String) (iA iB : Nat) (hiA : iA < l0.length) (hiB : iB < l0.length)
    (hA : nameAt l0 iA = A) (hB : nameAt l0 iB = B) :
    bondedWithin40 l0 A B = bonded40Idx l0 iA iB := by
  rw [bondedWithin40, find?_name_unique l0 hnd iA hiA A hA, find?_name_unique l0 hnd iB hiB B hB]
  rfl

theorem sum_map_zero {α : Type} (ps : List α) (f : α → Nat) (h : ∀ p ∈ ps, f p = 0) :
    (ps.map f).sum = 0 := by
  induction ps with
  | nil => rfl
  | cons p t ih =>
    rw [List.map_cons, List.sum_cons, h p (List.mem_cons_self _ _),
      ih (fun q hq => h q (List.mem_cons_of_mem _ hq))]

theorem mem_orderedPairs (n : Nat) (p : Nat × Nat) :
    p ∈ orderedPairs n ↔ p.1 < n ∧ p.2 < n ∧ p.2 ≠ p.1 := by
  obtain ⟨i, j⟩ := p
  rw [orderedPairs]
  simp only [List.mem_flatMap, List.mem_map, List.mem_filter, List.mem_range, bne_iff_ne]
  constructor
  · rintro ⟨a, ha, b, ⟨hb, hba⟩, heq⟩
    injection heq with h1 h2
    subst h1
    subst h2
    exact ⟨ha, hb, hba⟩
  · rintro ⟨hi, hj, hne⟩
    exact ⟨i, hi, j, ⟨hj, hne⟩, rfl⟩

theorem mem_pairsLt (n : Nat) (p : Nat × Nat) :
    p ∈ pairsLt n ↔ p.1 < p.2 ∧ p.2 < n := by
  obtain ⟨i, j⟩ := p
  rw [pairsLt]
  simp only [List.mem_flatMap, List.mem_map, List.mem_range, List.mem_range'_1]
  constructor
  · rintro ⟨a, ha, b, hb, heq⟩
    injection heq with h1 h2
    subst h1
    subst h2
    exact ⟨by omega, by omega⟩
  · rintro ⟨hij, hj⟩
    exact ⟨i, by omega, j, ⟨by omega, by omega⟩, rfl⟩

theorem sum_contrib_orderedPairs (l0 : List Mer) (hnd : (l0.map Mer.name).Nodup)
    (A B : String) (hAB : A ≠ B) (iA iB : Nat) (hiA : iA < l0.length) (hiB : iB < l0.length)
    (hA : nameAt l0 iA = A) (hB : nameAt l0 iB = B)
    (bnd : Nat → Nat → Bool) (hsym : bnd iB iA = bnd iA iB) :
    ((orderedPairs l0.length).map (contribCount bnd (nameAt l0) A B)).sum =
      2 * (if bnd iA iB then 1 else 0) := by
  have hiAB : iA ≠ iB := fun hc => hAB (by rw [← hA, ← hB, hc])
  have hne : ((iA, iB) : Nat × Nat) ≠ (iB, iA) := by
    intro hc
    exact hiAB (congrArg Prod.fst hc)
  rw [sum_map_support_pair (orderedPairs l0.length) _ (iA, iB) (iB, iA) hne ?h0]
  case h0 =>
    intro p hp hpx hpy
    obtain ⟨hp1, hp2, hp12⟩ := (mem_orderedPairs l0.length p).1 hp
    rw [contribCount]
    by_cases hb : bnd p.1 p.2 = true
    · rw [if_pos hb]
      have e1 : (if A = nameAt l0 p.1 ∧ B = nameAt l0 p.2 then 1 else 0) = 0 := by
        rw [if_neg]
        rintro ⟨h1, h2⟩
        apply hpx
        have e1a : p.1 = iA := nameAt_inj l0 hnd p.1 iA hp1 hiA (by rw [← h1, hA])
        have e1b : p.2 = iB := nameAt_inj l0 hnd p.2 iB hp2 hiB (by rw [← h2, hB])
        obtain ⟨q1, q2⟩ := p
        simp only at e1a e1b
        rw [e1a, e1b]
      have e2 : (if A = nameAt l0 p.2 ∧ B = nameAt l0 p.1 then 1 else 0) = 0 := by
        rw [if_neg]
        rintro ⟨h1, h2⟩
        apply hpy
        have e2a : p.2 = iA := nameAt_inj l0 hnd p.2 iA hp2 hiA (by rw [← h1, hA])
        have e2b : p.1 = iB := nameAt_inj l0 hnd p.1 iB hp1 hiB (by rw [← h2, hB])
        obtain ⟨q1, q2⟩ := p
        simp only at e2a e2b
        rw [e2a, e2b]
      rw [e1, e2]
    · rw [if_neg hb]
  · have hcx := count_orderedPairs l0.length iA iB
    have hcy := count_orderedPairs l0.length iB iA
    rw [if_pos ⟨hiA, hiB, fun hc => hiAB hc.symm⟩] at hcx
    rw [if_pos ⟨hiB, hiA, hiAB⟩] at hcy
    rw [hcx, hcy]
    have hfx : contribCount bnd (nameAt l0) A B (iA, iB) = if bnd iA iB then 1 else 0 := by
      rw [contribCount]
      by_cases hb : bnd iA iB = true
      · simp only
        rw [if_pos hb, if_pos ⟨hA.symm, hB.symm⟩,
          if_neg (fun hc => hAB (hc.1.trans hB))]
        rw [if_pos hb]
      · simp only
        rw [if_neg hb, if_neg hb]
    have hfy : contribCount bnd (nameAt l0) A B (iB, iA) = if bnd iA iB then 1 else 0 := by
      rw [contribCount]
      by_cases hb : bnd iA iB = true
      · simp only
        rw [hsym, if_pos hb,
          if_neg (fun hc => hAB (hc.1.trans hB)),
          if_pos ⟨hA.symm, hB.symm⟩]
        rw [if_pos hb]
      · simp only
        rw [hsym, if_neg hb, if_neg hb]
    rw [hfx, hfy]
    by_cases hb : bnd iA iB = true
    · rw [if_pos hb]
    · rw [if_neg hb]

theorem sum_contrib_self_orderedPairs (l0 : List Mer) (hnd : (l0.map Mer.name).Nodup)
    (A : String) (bnd : Nat → Nat → Bool) :
    ((orderedPairs l0.length).map (contribCount bnd (nameAt l0) A A)).sum = 0 := by
  apply sum_map_zero
  intro p hp
  obtain ⟨hp1, hp2, hp12⟩ := (mem_orderedPairs l0.length p).1 hp
  rw [contribCount]
  by_cases hb : bnd p.1 p.2 = true
  · rw [if_pos hb]
    have e1 : (if A = nameAt l0 p.1 ∧ A = nameAt l0 p.2 then 1 else 0) = 0 := by
      rw [if_neg]
      rintro ⟨h1, h2⟩
      exact hp12 (nameAt_inj l0 hnd p.2 p.1 hp2 hp1 (by rw [← h1, ← h2]))
    have e2 : (if A = nameAt l0 p.2 ∧ A = nameAt l0 p.1 then 1 else 0) = 0 := by
      rw [if_neg]
      rintro ⟨h1, h2⟩
      exact hp12 (nameAt_inj l0 hnd p.2 p.1 hp2 hp1 (by rw [← h1, ← h2]))
    rw [e1, e2]
  · rw [if_neg hb]

theorem sum_contribInter_pairsLt (l0 : List Mer) (hnd : (l0.map Mer.name).Nodup)
    (A B : String) (hAB : A ≠ B) (iA iB : Nat) (hiA : iA < l0.length) (hiB : iB < l0.length)
    (hA : nameAt l0 iA = A) (hB : nameAt l0 iB = B)
    (bnd : Nat → Nat → Bool) (hsym : bnd iB iA = bnd iA iB) :
    ((pairsLt l0.length).map (contribInter bnd (nameAt l0) A B)).sum =
      if bnd iA iB then 1 else 0 := by
  have hiAB : iA ≠ iB := fun hc => hAB (by rw [← hA, ← hB, hc])
  have hne : ((iA, iB) : Nat × Nat) ≠ (iB, iA) := by
    intro hc
    exact hiAB (congrArg Prod.fst hc)
  rw [sum_map_support_pair (pairsLt l0.length) _ (iA, iB) (iB, iA) hne ?h0]
  case h0 =>
    intro p hp hpx hpy
    obtain ⟨hplt, hp2⟩ := (mem_pairsLt l0.length p).1 hp
    have hp1 : p.1 < l0.length := by omega
    rw [contribInter]
    by_cases hb : bnd p.1 p.2 = true
    · rw [if_pos hb, if_neg]
      rintro (⟨h1, h2⟩ | ⟨h1, h2⟩)
      · apply hpx
        have e1a : p.1 = iA := nameAt_inj l0 hnd p.1 iA hp1 hiA (by rw [h1, hA])
        have e1b : p.2 = iB := nameAt_inj l0 hnd p.2 iB hp2 hiB (by rw [h2, hB])
        obtain ⟨q1, q2⟩ := p
        simp only at e1a e1b
        rw [e1a, e1b]
      · apply hpy
        have e2a : p.1 = iB := nameAt_inj l0 hnd p.1 iB hp1 hiB (by rw [h1, hB])
        have e2b : p.2 = iA := nameAt_inj l0 hnd p.2 iA hp2 hiA (by rw [h2, hA])
        obtain ⟨q1, q2⟩ := p
        simp only at e2a e2b
        rw [e2a, e2b]
    · rw [if_neg hb]
  · have hcx := count_pairsLt l0.length iA iB
    have hcy := count_pairsLt l0.length iB iA
    have hfx : contribInter bnd (nameAt l0) A B (iA, iB) = if bnd iA iB then 1 else 0 := by
      rw [contribInter]
      by_cases hb : bnd iA iB = true
      · simp only
        rw [if_pos hb, if_pos (Or.inl ⟨hA, hB⟩), if_pos hb]
      · simp only
        rw [if_neg hb, if_neg hb]
    have hfy : contribInter bnd (nameAt l0) A B (iB, iA) = if bnd iA iB then 1 else 0 := by
      rw [contribInter]
      by_cases hb : bnd iA iB = true
      · simp only
        rw [hsym, if_pos hb, if_pos (Or.inr ⟨hB, hA⟩), if_pos hb]
      · simp only
        rw [hsym, if_neg hb, if_neg hb]
    rw [hfx, hfy, hcx, hcy]
    rcases Nat.lt_or_ge iA iB with hlt | hge
    · have h4 : iA < iB ∧ iB < l0.length := ⟨hlt, hiB⟩
      have h5 : ¬ (iB < iA ∧ iA < l0.length) := fun hc => by omega
      rw [if_pos h4, if_neg h5]
      omega
    · have hgt : iB < iA := by omega
      have h4 : ¬ (iA < iB ∧ iB < l0.length) := fun hc => by omega
      have h5 : iB < iA ∧ iA < l0.length := ⟨hgt, hiA⟩
      rw [if_neg h4, if_pos h5]
      omega

theorem sum_contribInter_self_pairsLt (l0 : List Mer) (hnd : (l0.map Mer.name).Nodup)
    (A : String) (bnd : Nat → Nat → Bool) :
    ((pairsLt l0.length).map (contribInter bnd (nameAt l0) A A)).sum = 0 := by
  apply sum_map_zero
  intro p hp
  obtain ⟨hplt, hp2⟩ := (mem_pairsLt l0.length p).1 hp
  have hp1 : p.1 < l0.length := by omega
  rw [contribInter]
  by_cases hb : bnd p.1 p.2 = true
  · rw [if_pos hb, if_neg]
    rintro (⟨h1, h2⟩ | ⟨h1, h2⟩)
    · have := nameAt_inj l0 hnd p.1 p.2 hp1 hp2 (by rw [h1, h2])
      omega
    · have := nameAt_inj l0 hnd p.1 p.2 hp1 hp2 (by rw [h1, h2])
      omega
  · rw [if_neg hb]

theorem sum_contrib_self_pairsLt (l0 : List Mer) (hnd : (l0.map Mer.name).Nodup)
    (A : String) (bnd : Nat → Nat → Bool) :
    ((pairsLt l0.length).map (contribCount bnd (nameAt l0) A A)).sum = 0 := by
  apply sum_map_zero
  intro p hp
  obtain ⟨hplt, hp2⟩ := (mem_pairsLt l0.length p).1 hp
  have hp1 : p.1 < l0.length := by omega
  rw [contribCount]
  by_cases hb : bnd p.1 p.2 = true
  · rw [if_pos hb]
    have e1 : (if A = nameAt l0 p.1 ∧ A = nameAt l0 p.2 then 1 else 0) = 0 := by
      rw [if_neg]
      rintro ⟨h1, h2⟩
      have := nameAt_inj l0 hnd p.1 p.2 hp1 hp2 (by rw [← h1, ← h2])
      omega
    have e2 : (if A = nameAt l0 p.2 ∧ A = nameAt l0 p.1 then 1 else 0) = 0 := by
      rw [if_neg]
      rintro ⟨h1, h2⟩
      have := nameAt_inj l0 hnd p.1 p.2 hp1 hp2 (by rw [← h1, ← h2])
      omega
    rw [e1, e2]
  · rw [if_neg hb]

theorem bondCountOf_fresh (l0 : List Mer) (hfresh : ∀ m ∈ l0, m.bond_count = [])
    (A B : String) : bondCountOf l0 A B = 0 := by
  rw [bondCountOf]
  cases hf : l0.find? (fun m => m.name == A) with
  | none => rfl
  | some m =>
    simp only
    rw [hfresh m (List.mem_of_find?_eq_some hf)]
    rfl

theorem calculate_interactions_eq (mers : Mers) :
    calculate_interactions mers =
      ((dictKeys mers).zip
          ((pairsLt (dictValues mers).length).foldl interactStep2
            ((orderedPairs (dictValues mers).length).foldl interactStep1 (dictValues mers),
              ([] : List Interaction))).1,
        ((pairsLt (dictValues mers).length).foldl interactStep2
          ((orderedPairs (dictValues mers).length).foldl interactStep1 (dictValues mers),
            ([] : List Interaction))).2) := rfl

theorem sum_contribCount_pairsLt (l0 : List Mer) (hnd : (l0.map Mer.name).Nodup)
    (A B : String) (hAB : A ≠ B) (iA iB : Nat) (hiA : iA < l0.length) (hiB : iB < l0.length)
    (hA : nameAt l0 iA = A) (hB : nameAt l0 iB = B)
    (bnd : Nat → Nat → Bool) (hsym : bnd iB iA = bnd iA iB) :
    ((pairsLt l0.length).map (contribCount bnd (nameAt l0) A B)).sum =
      if bnd iA iB then 1 else 0 := by
  have hiAB : iA ≠ iB := fun hc => hAB (by rw [← hA, ← hB, hc])
  have hne : ((iA, iB) : Nat × Nat) ≠ (iB, iA) := by
    intro hc
    exact hiAB (congrArg Prod.fst hc)
  rw [sum_map_support_pair (pairsLt l0.length) _ (iA, iB) (iB, iA) hne ?h0]
  case h0 =>
    intro p hp hpx hpy
    obtain ⟨hplt, hp2⟩ := (mem_pairsLt l0.length p).1 hp
    have hp1 : p.1 < l0.length := by omega
    rw [contribCount]
    by_cases hb : bnd p.1 p.2 = true
    · rw [if_pos hb]
      have e1 : (if A = nameAt l0 p.1 ∧ B = nameAt l0 p.2 then 1 else 0) = 0 := by
        rw [if_neg]
        rintro ⟨h1, h2⟩
        apply hpx
        have e1a : p.1 = iA := nameAt_inj l0 hnd p.1 iA hp1 hiA (by rw [← h1, hA])
        have e1b : p.2 = iB := nameAt_inj l0 hnd p.2 iB hp2 hiB (by rw [← h2, hB])
        obtain ⟨q1, q2⟩ := p
        simp only at e1a e1b
        rw [e1a, e1b]
      have e2 : (if A = nameAt l0 p.2 ∧ B = nameAt l0 p.1 then 1 else 0) = 0 := by
        rw [if_neg]
        rintro ⟨h1, h2⟩
        apply hpy
        have e2a : p.2 = iA := nameAt_inj l0 hnd p.2 iA hp2 hiA (by rw [← h1, hA])
        have e2b : p.1 = iB := nameAt_inj l0 hnd p.1 iB hp1 hiB (by rw [← h2, hB])
        obtain ⟨q1, q2⟩ := p
        simp only at e2a e2b
        rw [e2a, e2b]
      rw [e1, e2]
    · rw [if_neg hb]
  · have hcx := count_pairsLt l0.length iA iB
    have hcy := count_pairsLt l0.length iB iA
    have hfx : contribCount bnd (nameAt l0) A B (iA, iB) = if bnd iA iB then 1 else 0 := by
      rw [contribCount]
      by_cases hb : bnd iA iB = true
      · simp only
        rw [if_pos hb, if_pos ⟨hA.symm, hB.symm⟩,
          if_neg (fun hc => hAB (hc.1.trans hB)), if_pos hb]
      · simp only
        rw [if_neg hb, if_neg hb]
    have hfy : contribCount bnd (nameAt l0) A B (iB, iA) = if bnd iA iB then 1 else 0 := by
      rw [contribCount]
      by_cases hb : bnd iA iB = true
      · simp only
        rw [hsym, if_pos hb, if_neg (fun hc => hAB (hc.1.trans hB)),
          if_pos ⟨hA.symm, hB.symm⟩, if_pos hb]
      · simp only
        rw [hsym, if_neg hb, if_neg hb]
    rw [hfx, hfy, hcx, hcy]
    rcases Nat.lt_or_ge iA iB with hlt | hge
    · have h4 : iA < iB ∧ iB < l0.length := ⟨hlt, hiB⟩
      have h5 : ¬ (iB < iA ∧ iA < l0.length) := fun hc => by omega
      rw [if_pos h4, if_neg h5]
      omega
    · have hgt : iB < iA := by omega
      have h4 : ¬ (iA < iB ∧ iB < l0.length) := fun hc => by omega
      have h5 : iB < iA ∧ iA < l0.length := ⟨hgt, hiA⟩
      rw [if_neg h4, if_pos h5]
      omega

/-- Full accounting of one run of `calculate_interactions` on a freshly
parsed, duplicate-free residue mapping: the final mutual bond counter of a
distinct residue pair is twice the 4.5-indicator (both orders of the first
double loop bump it) plus the 4.0-indicator (`is_bonded_to` bumps it again
in the second loop), each residue pair yields one `Interaction` exactly when
some atom pair is within 4.0, and self counters stay zero. -/
theorem calc_accounting (mers : Mers)
    (hnd : ((dictValues mers).map Mer.name).Nodup)
    (hfresh : ∀ m ∈ dictValues mers, m.bond_count = []) :
    (∀ A B : String, A ≠ B →
      A ∈ (dictValues mers).map Mer.name → B ∈ (dictValues mers).map Mer.name →
      bondCountOf (dictValues (calculate_interactions mers).1) A B =
        2 * (if bondedCloser45 (dictValues mers) A B then 1 else 0) +
          (if bondedWithin40 (dictValues mers) A B then 1 else 0) ∧
      (calculate_interactions mers).2.countP (matchesPair A B) =
        (if bondedWithin40 (dictValues mers) A B then 1 else 0)) ∧
    (∀ A : String, bondCountOf (dictValues (calculate_interactions mers).1) A A = 0) := by
  have hb1 : ∀ p ∈ orderedPairs (dictValues mers).length,
      p.1 < (dictValues mers).length ∧ p.2 < (dictValues mers).length := by
    intro p hp
    have := (mem_orderedPairs _ p).1 hp
    exact ⟨this.1, this.2.1⟩
  have hb2 : ∀ p ∈ pairsLt (dictValues mers).length,
      p.1 < (dictValues mers).length ∧ p.2 < (dictValues mers).length := by
    intro p hp
    have := (mem_pairsLt _ p).1 hp
    exact ⟨by omega, this.2⟩
  obtain ⟨hsk1, hcnt1⟩ := phase1_fold_spec (dictValues mers)
    (orderedPairs (dictValues mers).length) (dictValues mers) rfl hb1
  obtain ⟨hsk2, hcnt2, hint2⟩ := phase2_fold_spec (dictValues mers)
    (pairsLt (dictValues mers).length)
    ((orderedPairs (dictValues mers).length).foldl interactStep1 (dictValues mers), [])
    hsk1 hb2
  have hkeyslen : (dictKeys mers).length = (dictValues mers).length := by
    rw [dictKeys, dictValues, List.length_map, List.length_map]
  have hlen2 := skel_length _ _ hsk2
  have hvals : dictValues (calculate_interactions mers).1 =
      ((pairsLt (dictValues mers).length).foldl interactStep2
        ((orderedPairs (dictValues mers).length).foldl interactStep1 (dictValues mers),
          ([] : List Interaction))).1 := by
    rw [calculate_interactions_eq]
    exact List.map_snd_zip _ _ (by omega)
  constructor
  · intro A B hAB hA hB
    obtain ⟨iA, hiA, hnA⟩ := exists_index_of_name _ A hA
    obtain ⟨iB, hiB, hnB⟩ := exists_index_of_name _ B hB
    have hsym45 : bonded45Idx (dictValues mers) iB iA = bonded45Idx (dictValues mers) iA iB := by
      rw [bonded45Idx, bonded45Idx, anyPairCloser45_symm]
    have hsym40 : bonded40Idx (dictValues mers) iB iA = bonded40Idx (dictValues mers) iA iB := by
      rw [bonded40Idx, bonded40Idx, anyPairWithin40_symm]
    have hc45 := bondedCloser45_eq_idx _ hnd A B iA iB hiA hiB hnA hnB
    have hc40 := bondedWithin40_eq_idx _ hnd A B iA iB hiA hiB hnA hnB
    constructor
    · rw [hvals, hcnt2 A B, hcnt1 A B, bondCountOf_fresh _ hfresh,
        sum_contrib_orderedPairs _ hnd A B hAB iA iB hiA hiB hnA hnB _ hsym45,
        sum_contribCount_pairsLt _ hnd A B hAB iA iB hiA hiB hnA hnB _ hsym40,
        hc45, hc40]
      omega
    · rw [calculate_interactions_eq]
      dsimp only
      rw [hint2 A B, List.countP_nil,
        sum_contribInter_pairsLt _ hnd A B hAB iA iB hiA hiB hnA hnB _ hsym40, hc40]
      omega
  · intro A
    rw [hvals, hcnt2 A A, hcnt1 A A, bondCountOf_fresh _ hfresh,
      sum_contrib_self_orderedPairs _ hnd A _, sum_contrib_self_pairsLt _ hnd A _]

theorem bondedCloser45_symm (l0 : List Mer) (A B : String) :
    bondedCloser45 l0 A B = bondedCloser45 l0 B A := by
  rw [bondedCloser45, bondedCloser45]
  cases hfA : l0.find? (fun m => m.name == A) <;> cases hfB : l0.find? (fun m => m.name == B)
  · rfl
  · rfl
  · rfl
  · exact anyPairCloser45_symm _ _

theorem bondedWithin40_symm (l0 : List Mer) (A B : String) :
    bondedWithin40 l0 A B = bondedWithin40 l0 B A := by
  rw [bondedWithin40, bondedWithin40]
  cases hfA : l0.find? (fun m => m.name == A) <;> cases hfB : l0.find? (fun m => m.name == B)
  · rfl
  · rfl
  · rfl
  · exact anyPairWithin40_symm _ _

theorem bondedWithin40_imp_closer45 (l0 : List Mer) (A B : String)
    (h : bondedWithin40 l0 A B = true) : bondedCloser45 l0 A B = true := by
  rw [bondedWithin40] at h
  rw [bondedCloser45]
  cases hfA : l0.find? (fun m => m.name == A) <;>
    cases hfB : l0.find? (fun m => m.name == B) <;>
    rw [hfA, hfB] at h
  · exact absurd h (by simp)
  · exact absurd h (by simp)
  · exact absurd h (by simp)
  · exact within40_closer45 _ _ h

/-- C7 (amended).  In one run of `calculate_interactions` on a freshly
parsed residue mapping, the two bond counters of a bonded unordered pair of
distinct residues are incremented symmetrically but not once: the first
loop nest visits both ordered versions of the pair, giving two increments
per side for every pair with an atom pair strictly within 4.5, and
`is_bonded_to` in the interaction loop adds a third increment per side when
some atom pair is within its own threshold 4.0.  So the counters end equal
at 3 (within 4.0), 2 (within 4.5 only) or 0, rather than 1; self pairs are
never counted. -/
theorem claim_C7 (mers : Mers)
    (hnd : ((dictValues mers).map Mer.name).Nodup)
    (hfresh : ∀ m ∈ dictValues mers, m.bond_count = [])
    (A B : String) (hAB : A ≠ B)
    (hA : A ∈ (dictValues mers).map Mer.name) (hB : B ∈ (dictValues mers).map Mer.name) :
    bondCountOf (dictValues (calculate_interactions mers).1) A B =
      bondCountOf (dictValues (calculate_interactions mers).1) B A ∧
    bondCountOf (dictValues (calculate_interactions mers).1) A B =
      (if bondedWithin40 (dictValues mers) A B then 3
       else if bondedCloser45 (dictValues mers) A B then 2 else 0) ∧
    bondCountOf (dictValues (calculate_interactions mers).1) A A = 0 := by
  obtain ⟨hpair, hself⟩ := calc_accounting mers hnd hfresh
  obtain ⟨hcAB, _⟩ := hpair A B hAB hA hB
  obtain ⟨hcBA, _⟩ := hpair B A (fun hc => hAB hc.symm) hB hA
  refine ⟨?_, ?_, hself A⟩
  · rw [hcAB, hcBA, bondedCloser45_symm _ B A, bondedWithin40_symm _ B A]
  · rw [hcAB]
    by_cases h40 : bondedWithin40 (dictValues mers) A B = true
    · rw [if_pos h40, if_pos (bondedWithin40_imp_closer45 _ _ _ h40), if_pos h40]
    · rw [if_neg h40, if_neg h40]
      by_cases h45 : bondedCloser45 (dictValues mers) A B = true
      · rw [if_pos h45, if_pos h45]
      · rw [if_neg h45, if_neg h45]

/-- C7 counterexample.  For the two fixture residues whose atoms are 2
apart (well within every threshold), one run of `calculate_interactions`
leaves each residue's counter for the other at 3, not 1: the pair is
counted once per ordered direction in the first loop nest and once more by
`is_bonded_to` while building the interaction list. -/
theorem claim_C7_cex :
    bondCountOf (dictValues (calculate_interactions (parse_atoms [exlA, exlB])).1)
        "GLY-1(A)" "ALA-2(A)" = 3 ∧
      bondCountOf (dictValues (calculate_interactions (parse_atoms [exlA, exlB])).1)
        "ALA-2(A)" "GLY-1(A)" = 3 := by
  constructor
  · with_unfolding_all rfl
  · with_unfolding_all rfl

/-- C7 witness: the amended accounting instantiated on the parsed
two-residue fixture. -/
theorem claim_C7_witness :
    bondCountOf (dictValues (calculate_interactions (parse_atoms [exlA, exlB])).1)
        "GLY-1(A)" "ALA-2(A)" =
      bondCountOf (dictValues (calculate_interactions (parse_atoms [exlA, exlB])).1)
        "ALA-2(A)" "GLY-1(A)" ∧
    bondCountOf (dictValues (calculate_interactions (parse_atoms [exlA, exlB])).1)
        "GLY-1(A)" "ALA-2(A)" =
      (if bondedWithin40 (dictValues (parse_atoms [exlA, exlB])) "GLY-1(A)" "ALA-2(A)" then 3
       else if bondedCloser45 (dictValues (parse_atoms [exlA, exlB])) "GLY-1(A)" "ALA-2(A)"
       then 2 else 0) ∧
    bondCountOf (dictValues (calculate_interactions (parse_atoms [exlA, exlB])).1)
      "GLY-1(A)" "GLY-1(A)" = 0 :=
  claim_C7 (parse_atoms [exlA, exlB]) (by with_unfolding_all decide)
    (by with_unfolding_all decide) "GLY-1(A)" "ALA-2(A)" (by decide)
    (by with_unfolding_all decide) (by with_unfolding_all decide)

/-- C4 (amended).  After `calculate_interactions` runs on a freshly parsed
residue mapping, two distinct residues have a positive mutual bond count if
and only if some atom of one is strictly closer than the 4.5 threshold to
some atom of the other — but the returned list contains exactly one
`Interaction` per unordered pair whose atoms come within `is_bonded_to`'s
4.0 threshold, not per 4.5-bonded pair: pairs whose closest atoms lie in
the gap (4.0, 4.5) have positive bond counts and no `Interaction`. -/
theorem claim_C4 (mers : Mers)
    (hnd : ((dictValues mers).map Mer.name).Nodup)
    (hfresh : ∀ m ∈ dictValues mers, m.bond_count = [])
    (A B : String) (hAB : A ≠ B)
    (hA : A ∈ (dictValues mers).map Mer.name) (hB : B ∈ (dictValues mers).map Mer.name) :
    ((0 < bondCountOf (dictValues (calculate_interactions mers).1) A B ∧
      0 < bondCountOf (dictValues (calculate_interactions mers).1) B A) ↔
        bondedCloser45 (dictValues mers) A B = true) ∧
    ((calculate_interactions mers).2.countP (matchesPair A B) =
      if bondedWithin40 (dictValues mers) A B then 1 else 0) := by
  obtain ⟨hpair, _⟩ := calc_accounting mers hnd hfresh
  obtain ⟨hcAB, hint⟩ := hpair A B hAB hA hB
  obtain ⟨hcBA, _⟩ := hpair B A (fun hc => hAB hc.symm) hB hA
  refine ⟨⟨?_, ?_⟩, hint⟩
  · rintro ⟨hposAB, _⟩
    by_contra h45
    have h40 : ¬ bondedWithin40 (dictValues mers) A B = true :=
      fun hc => h45 (bondedWithin40_imp_closer45 _ _ _ hc)
    rw [hcAB, if_neg h45, if_neg h40] at hposAB
    omega
  · intro h45
    have h45' : bondedCloser45 (dictValues mers) B A = true := by
      rw [bondedCloser45_symm _ B A]
      exact h45
    constructor
    · rw [hcAB, if_pos h45]
      by_cases h40 : bondedWithin40 (dictValues mers) A B = true
      · rw [if_pos h40]
        omega
      · rw [if_neg h40]
        omega
    · rw [hcBA, if_pos h45']
      by_cases h40 : bondedWithin40 (dictValues mers) B A = true
      · rw [if_pos h40]
        omega
      · rw [if_neg h40]
        omega

/-- Fixture: single-atom residue 4.2 length units from `exlA`'s atom —
inside the 4.5 bonding threshold but outside `is_bonded_to`'s 4.0. -/
def exlG : String := "ATOM      2  CA  ALA A   2       4.200   0.000   0.000  1.00  0.00"

/-- C4 counterexample.  Two residues whose closest atoms are 4.2 apart are
bonded under the claimed 4.5 threshold and end with positive mutual bond
counts (2 each side), yet the returned interaction list is empty: the
claimed "exactly one Interaction per distinctly-bonded pair" fails, because
`is_bonded_to` re-tests against its own default threshold 4.0 when the
interaction list is built. -/
theorem claim_C4_cex :
    bondedCloser45 (dictValues (parse_atoms [exlA, exlG])) "GLY-1(A)" "ALA-2(A)" = true ∧
      bondCountOf (dictValues (calculate_interactions (parse_atoms [exlA, exlG])).1)
        "GLY-1(A)" "ALA-2(A)" = 2 ∧
      bondCountOf (dictValues (calculate_interactions (parse_atoms [exlA, exlG])).1)
        "ALA-2(A)" "GLY-1(A)" = 2 ∧
      (calculate_interactions (parse_atoms [exlA, exlG])).2 = [] := by
  refine ⟨?_, ?_, ?_, ?_⟩
  · with_unfolding_all rfl
  · with_unfolding_all rfl
  · with_unfolding_all rfl
  · with_unfolding_all rfl

/-- C4 witness: the amended statement instantiated on the parsed fixture
with atoms 2 apart (interaction present) — hypotheses discharged by
computation. -/
theorem claim_C4_witness :
    ((0 < bondCountOf (dictValues (calculate_interactions (parse_atoms [exlA, exlB])).1)
        "GLY-1(A)" "ALA-2(A)" ∧
      0 < bondCountOf (dictValues (calculate_interactions (parse_atoms [exlA, exlB])).1)
        "ALA-2(A)" "GLY-1(A)") ↔
        bondedCloser45 (dictValues (parse_atoms [exlA, exlB])) "GLY-1(A)" "ALA-2(A)" = true) ∧
    ((calculate_interactions (parse_atoms [exlA, exlB])).2.countP
        (matchesPair "GLY-1(A)" "ALA-2(A)") =
      if bondedWithin40 (dictValues (parse_atoms [exlA, exlB])) "GLY-1(A)" "ALA-2(A)"
      then 1 else 0) :=
  claim_C4 (parse_atoms [exlA, exlB]) (by with_unfolding_all decide)
    (by with_unfolding_all decide) "GLY-1(A)" "ALA-2(A)" (by decide)
    (by with_unfolding_all decide) (by with_unfolding_all decide)

/-- Well-formed adjacency map: distinct node keys, and every neighbour key
is itself a node of the map (Python's `distances[neighbor]` would raise
`KeyError` otherwise). -/
def adjWF (adj : Adj) : Prop :=
  (dictKeys adj).Nodup ∧ ∀ p ∈ adj, ∀ q ∈ p.2, q.1 ∈ dictKeys adj

theorem dictKeys_dictSet_mem {α β : Type} [DecidableEq α] (d : List (α × β)) (k : α) (v : β)
    (h : k ∈ dictKeys d) : dictKeys (dictSet d k v) = dictKeys d := by
  induction d with
  | nil => simp [dictKeys] at h
  | cons q t ih =>
    obtain ⟨k', v'⟩ := q
    rw [dictSet]
    by_cases he : k' = k
    · rw [if_pos he, dictKeys, dictKeys]
      rfl
    · rw [if_neg he, dictKeys, List.map_cons, dictKeys, List.map_cons]
      rw [dictKeys, List.map_cons] at h
      rcases List.mem_cons.1 h with h1 | h1
      · exact absurd h1.symm he
      · have h2 := ih h1
        rw [dictKeys, dictKeys] at h2
        rw [h2]

theorem dGet_dictSet_self (d : DistMap) (k : String) (v : Option ℚ) :
    dGet (dictSet d k v) k = v := by
  rw [dGet, dictGet?_dictSet_self]
  rfl

theorem dGet_dictSet_other (d : DistMap) (k k' : String) (v : Option ℚ) (h : k' ≠ k) :
    dGet (dictSet d k v) k' = dGet d k' := by
  rw [dGet, dictGet?_dictSet_other _ _ _ _ h, dGet]

theorem pGet_dictSet_self (d : PredMap) (k : String) (v : Option String) :
    pGet (dictSet d k v) k = v := by
  rw [pGet, dictGet?_dictSet_self]
  rfl

theorem pGet_dictSet_other (d : PredMap) (k k' : String) (v : Option String) (h : k' ≠ k) :
    pGet (dictSet d k v) k' = pGet d k' := by
  rw [pGet, dictGet?_dictSet_other _ _ _ _ h, pGet]

theorem pGet_init (keys : List String) (v : String) :
    pGet (keys.map fun m => (m, (none : Option String))) v = none := by
  induction keys with
  | nil => rfl
  | cons k t ih =>
    rw [List.map_cons, pGet, dictGet?]
    by_cases he : k = v
    · rw [if_pos he]
      rfl
    · rw [if_neg he]
      exact ih

theorem dGet_init (keys : List String) (v : String) :
    dGet (keys.map fun m => (m, (none : Option ℚ))) v = none := by
  induction keys with
  | nil => rfl
  | cons k t ih =>
    rw [List.map_cons, dGet, dictGet?]
    by_cases he : k = v
    · rw [if_pos he]
      rfl
    · rw [if_neg he]
      exact ih

theorem distLt_irrefl (a : Option ℚ) : distLt a a = false := by
  cases a with
  | none => rfl
  | some x => simp [distLt]

theorem distLt_trans (a b c : Option ℚ) (h1 : distLt a b = true) (h2 : distLt b c = true) :
    distLt a c = true := by
  cases a with
  | none =>
    rw [show distLt none b = false from rfl] at h1
    exact absurd h1 Bool.false_ne_true
  | some x =>
    cases c with
    | none => rfl
    | some z =>
      cases b with
      | none =>
        rw [show distLt none (some z) = false from rfl] at h2
        exact absurd h2 Bool.false_ne_true
      | some y =>
        have hx : x < y := of_decide_eq_true h1
        have hy : y < z := of_decide_eq_true h2
        exact decide_eq_true (lt_trans hx hy)

theorem distLt_le_trans (a b c : Option ℚ) (h1 : distLt a b = false) (h2 : distLt a c = true) :
    distLt b c = true := by
  cases a with
  | none =>
    rw [show distLt none c = false from rfl] at h2
    exact absurd h2 Bool.false_ne_true
  | some x =>
    cases c with
    | none =>
      cases b with
      | none =>
        rw [show distLt (some x) none = true from rfl] at h1
        exact absurd h1 (by decide)
      | some y => rfl
    | some z =>
      have hxz : x < z := of_decide_eq_true h2
      cases b with
      | none =>
        rw [show distLt (some x) none = true from rfl] at h1
        exact absurd h1 (by decide)
      | some y =>
        have hyx : ¬ (x < y) := fun hc => by
          rw [show distLt (some x) (some y) = decide (x < y) from rfl] at h1
          rw [decide_eq_true hc] at h1
          exact absurd h1 (by decide)
        exact decide_eq_true (lt_of_le_of_lt (le_of_not_lt hyx) hxz)

theorem pickMin_spec (dist : DistMap) (x : String) (xs : List String) :
    pickMin dist (x :: xs) ∈ x :: xs ∧
      ∀ v ∈ x :: xs, distLt (dGet dist v) (dGet dist (pickMin dist (x :: xs))) = false := by
  rw [pickMin]
  have main : ∀ (ys : List String) (b : String),
      (ys.foldl (fun best m => if distLt (dGet dist m) (dGet dist best) then m else best) b = b ∨
        ys.foldl (fun best m => if distLt (dGet dist m) (dGet dist best) then m else best) b ∈ ys) ∧
      ∀ v, (v = b ∨ v ∈ ys) →
        distLt (dGet dist v)
          (dGet dist
            (ys.foldl (fun best m => if distLt (dGet dist m) (dGet dist best) then m else best) b)) =
          false := by
    intro ys
    induction ys with
    | nil =>
      intro b
      refine ⟨Or.inl rfl, ?_⟩
      rintro v (rfl | hv)
      · exact distLt_irrefl _
      · simp at hv
    | cons y t ih =>
      intro b
      rw [List.foldl_cons]
      by_cases hlt : distLt (dGet dist y) (dGet dist b) = true
      · rw [if_pos hlt]
        obtain ⟨hmem, hmin⟩ := ih y
        refine ⟨?_, ?_⟩
        · rcases hmem with h | h
          · exact Or.inr (by rw [h]; exact List.mem_cons_self _ _)
          · exact Or.inr (List.mem_cons_of_mem _ h)
        · rintro v (rfl | hv)
          · have hyf := hmin y (Or.inl rfl)
            rw [Bool.eq_false_iff]
            intro hc
            have h2 := distLt_trans _ _ _ hlt hc
            rw [h2] at hyf
            exact absurd hyf (by decide)
          · rcases List.mem_cons.1 hv with h | h
            · rw [h]
              exact hmin y (Or.inl rfl)
            · exact hmin v (Or.inr h)
      · rw [if_neg hlt]
        obtain ⟨hmem, hmin⟩ := ih b
        refine ⟨?_, ?_⟩
        · rcases hmem with h | h
          · exact Or.inl h
          · exact Or.inr (List.mem_cons_of_mem _ h)
        · rintro v (rfl | hv)
          · exact hmin v (Or.inl rfl)
          · rcases List.mem_cons.1 hv with h | h
            · subst h
              have hbf := hmin b (Or.inl rfl)
              rw [Bool.eq_false_iff]
              intro hc
              have h2 := distLt_le_trans _ _ _ (Bool.eq_false_iff.2 hlt) hc
              rw [h2] at hbf
              exact absurd hbf (by decide)
            · exact hmin v (Or.inr h)
  obtain ⟨hmem, hmin⟩ := main xs x
  refine ⟨?_, ?_⟩
  · rcases hmem with h | h
    · rw [h]
      exact List.mem_cons_self _ _
    · exact List.mem_cons_of_mem _ h
  · intro v hv
    rcases List.mem_cons.1 hv with h | h
    · exact hmin v (Or.inl h)
    · exact hmin v (Or.inr h)

theorem dictGet?_not_mem {α β : Type} [DecidableEq α] (d : List (α × β)) (k : α)
    (h : k ∉ dictKeys d) : dictGet? d k = none := by
  induction d with
  | nil => rfl
  | cons q t ih =>
    obtain ⟨k', v'⟩ := q
    rw [dictGet?]
    rw [dictKeys, List.map_cons] at h
    rw [if_neg (fun hc => h (by rw [hc]; exact List.mem_cons_self _ _))]
    exact ih (fun hc => h (List.mem_cons_of_mem _ hc))

theorem distLt_none_eq_none (a : Option ℚ) (h : distLt a none = false) : a = none := by
  cases a with
  | none => rfl
  | some x =>
    rw [show distLt (some x) none = true from rfl] at h
    exact absurd h (by decide)

theorem relaxFold_cons (current : String) (dc : ℚ) (visited : List String)
    (dist : DistMap) (pred : PredMap) (n : String) (w : ℚ) (t : List (String × ℚ)) :
    relaxFold current dc visited (dist, pred) ((n, w) :: t) =
      relaxFold current dc visited
        (if n ∈ visited then (dist, pred)
         else if distLt (some (dc + w)) (dGet dist n) then
           (dictSet dist n (some (dc + w)), dictSet pred n (some current))
         else (dist, pred)) t := rfl

/-- Effect of one relaxation pass: keys are preserved, entries of already
visited nodes are untouched, and every entry is either untouched or has been
(re)pointed at `current` with a finite distance. -/
theorem relaxFold_spec (current : String) (dc : ℚ) (visited' : List String) :
    ∀ (items : List (String × ℚ)) (dist : DistMap) (pred : PredMap),
      (∀ q ∈ items, q.1 ∈ dictKeys dist ∧ q.1 ∈ dictKeys pred) →
      dictKeys (relaxFold current dc visited' (dist, pred) items).1 = dictKeys dist ∧
      dictKeys (relaxFold current dc visited' (dist, pred) items).2 = dictKeys pred ∧
      (∀ v ∈ visited',
        dGet (relaxFold current dc visited' (dist, pred) items).1 v = dGet dist v ∧
        pGet (relaxFold current dc visited' (dist, pred) items).2 v = pGet pred v) ∧
      (∀ v,
        (dGet (relaxFold current dc visited' (dist, pred) items).1 v = dGet dist v ∧
          pGet (relaxFold current dc visited' (dist, pred) items).2 v = pGet pred v) ∨
        (pGet (relaxFold current dc visited' (dist, pred) items).2 v = some current ∧
          v ∉ visited' ∧
          dGet (relaxFold current dc visited' (dist, pred) items).1 v ≠ none)) := by
  intro items
  induction items with
  | nil =>
    intro dist pred _
    exact ⟨rfl, rfl, fun v _ => ⟨rfl, rfl⟩, fun v => Or.inl ⟨rfl, rfl⟩⟩
  | cons q t ih =>
    intro dist pred hq
    obtain ⟨neighbor, weight⟩ := q
    have hnd : neighbor ∈ dictKeys dist := (hq _ (List.mem_cons_self _ _)).1
    have hnp : neighbor ∈ dictKeys pred := (hq _ (List.mem_cons_self _ _)).2
    rw [relaxFold_cons]
    by_cases hvis : neighbor ∈ visited'
    · rw [if_pos hvis]
      exact ih dist pred (fun q hqt => hq q (List.mem_cons_of_mem _ hqt))
    · rw [if_neg hvis]
      by_cases hrel : distLt (some (dc + weight)) (dGet dist neighbor) = true
      · rw [if_pos hrel]
        set dist' := dictSet dist neighbor (some (dc + weight)) with hdist'
        set pred' := dictSet pred neighbor (some current) with hpred'
        have hkd : dictKeys dist' = dictKeys dist := dictKeys_dictSet_mem _ _ _ hnd
        have hkp : dictKeys pred' = dictKeys pred := dictKeys_dictSet_mem _ _ _ hnp
        have hq' : ∀ q ∈ t, q.1 ∈ dictKeys dist' ∧ q.1 ∈ dictKeys pred' := by
          intro q hqt
          rw [hkd, hkp]
          exact hq q (List.mem_cons_of_mem _ hqt)
        obtain ⟨r1, r2, r3, r4⟩ := ih dist' pred' hq'
        refine ⟨r1.trans hkd, r2.trans hkp, ?_, ?_⟩
        · intro v hv
          obtain ⟨e1, e2⟩ := r3 v hv
          have hvne : v ≠ neighbor := fun hc => hvis (hc ▸ hv)
          rw [e1, e2, hdist', hpred', dGet_dictSet_other _ _ _ _ hvne,
            pGet_dictSet_other _ _ _ _ hvne]
          exact ⟨rfl, rfl⟩
        · intro v
          rcases r4 v with ⟨e1, e2⟩ | ⟨e1, e2, e3⟩
          · by_cases hvn : v = neighbor
            · subst hvn
              right
              rw [e2, hpred', pGet_dictSet_self]
              refine ⟨rfl, hvis, ?_⟩
              rw [e1, hdist', dGet_dictSet_self]
              exact fun hc => Option.noConfusion hc
            · left
              rw [e1, e2, hdist', hpred', dGet_dictSet_other _ _ _ _ hvn,
                pGet_dictSet_other _ _ _ _ hvn]
              exact ⟨rfl, rfl⟩
          · exact Or.inr ⟨e1, e2, e3⟩
      · rw [if_neg hrel]
        exact ih dist pred (fun q hqt => hq q (List.mem_cons_of_mem _ hqt))

/-- Loop invariant of the embedded dijkstra. -/
structure DijkInv (adj : Adj) (source : String) (unvisited visited : List String)
    (dist : DistMap) (pred : PredMap) : Prop where
  keys_dist : dictKeys dist = dictKeys adj
  keys_pred : dictKeys pred = dictKeys adj
  unvis_sub : ∀ v ∈ unvisited, v ∈ dictKeys adj
  vis_sub : ∀ v ∈ visited, v ∈ dictKeys adj
  unvis_nodup : unvisited.Nodup
  vis_nodup : visited.Nodup
  disj : ∀ v ∈ visited, v ∉ unvisited
  cover : ∀ v ∈ dictKeys adj, v ∈ unvisited ∨ v ∈ visited
  predInv : ∀ v u, pGet pred v = some u → u ∈ visited ∧ dGet dist u ≠ none ∧ dGet dist v ≠ none
  predRank : ∀ v u, v ∈ visited → pGet pred v = some u → visited.indexOf u < visited.indexOf v
  rootInv : ∀ v ∈ visited, pGet pred v = none → v = source ∨ dGet dist v = none
  unvisFin : ∀ v ∈ unvisited, dGet dist v ≠ none → v = source ∨ pGet pred v ≠ none

/-- What holds of the maps dijkstra returns: there is a visitation order `V`
such that every predecessor entry points into `V` at a strictly earlier
position, predecessor-less visited nodes are the source or unreachable, and
nodes outside `V` are unreachable. -/
def DijkFinal (adj : Adj) (source : String) (dist : DistMap) (pred : PredMap) : Prop :=
  dictKeys dist = dictKeys adj ∧ dictKeys pred = dictKeys adj ∧
  ∃ V : List String, V.Nodup ∧ (∀ v ∈ V, v ∈ dictKeys adj) ∧
    (∀ v u, pGet pred v = some u → u ∈ V ∧ dGet dist u ≠ none ∧ dGet dist v ≠ none ∧
      (v ∈ V → V.indexOf u < V.indexOf v)) ∧
    (∀ v ∈ V, pGet pred v = none → v = source ∨ dGet dist v = none) ∧
    (∀ v ∈ dictKeys adj, v ∉ V → dGet dist v = none)

theorem dijkFinal_of_inv_empty (adj : Adj) (source : String) (visited : List String)
    (dist : DistMap) (pred : PredMap)
    (inv : DijkInv adj source [] visited dist pred) :
    DijkFinal adj source dist pred := by
  refine ⟨inv.keys_dist, inv.keys_pred, visited, inv.vis_nodup, inv.vis_sub, ?_, inv.rootInv, ?_⟩
  · intro v u hp
    obtain ⟨h1, h2, h3⟩ := inv.predInv v u hp
    exact ⟨h1, h2, h3, fun hv => inv.predRank v u hv hp⟩
  · intro v hv hnv
    rcases inv.cover v hv with h | h
    · simp at h
    · exact absurd h hnv

theorem dijkFinal_of_break (adj : Adj) (source : String) (unvisited visited : List String)
    (dist : DistMap) (pred : PredMap)
    (inv : DijkInv adj source unvisited visited dist pred)
    (hall : ∀ v ∈ unvisited, dGet dist v = none) :
    DijkFinal adj source dist pred := by
  refine ⟨inv.keys_dist, inv.keys_pred, visited, inv.vis_nodup, inv.vis_sub, ?_, inv.rootInv, ?_⟩
  · intro v u hp
    obtain ⟨h1, h2, h3⟩ := inv.predInv v u hp
    exact ⟨h1, h2, h3, fun hv => inv.predRank v u hv hp⟩
  · intro v hv hnv
    rcases inv.cover v hv with h | h
    · exact hall v h
    · exact absurd h hnv

theorem dijkstraAux_final (adj : Adj) (source : String) (hwf : adjWF adj) :
    ∀ (fuel : Nat) (unvisited visited : List String) (dist : DistMap) (pred : PredMap),
      unvisited.length ≤ fuel →
      DijkInv adj source unvisited visited dist pred →
      DijkFinal adj source (dijkstraAux adj fuel unvisited visited (dist, pred)).1
        (dijkstraAux adj fuel unvisited visited (dist, pred)).2 := by
  intro fuel
  induction fuel with
  | zero =>
    intro unvisited visited dist pred hlen inv
    have hnil : unvisited = [] := List.eq_nil_of_length_eq_zero (Nat.le_zero.mp hlen)
    subst hnil
    rw [dijkstraAux]
    exact dijkFinal_of_inv_empty adj source visited dist pred inv
  | succ fuel ih =>
    intro unvisited visited dist pred hlen inv
    cases unvisited with
    | nil =>
      rw [dijkstraAux]
      exact dijkFinal_of_inv_empty adj source visited dist pred inv
    | cons u us =>
      rw [dijkstraAux]
      dsimp only
      set current := pickMin dist (u :: us) with hcurdef
      obtain ⟨hcur_mem, hcur_min⟩ := pickMin_spec dist u us
      rw [← hcurdef] at hcur_mem hcur_min
      cases hdc : dGet dist current with
      | none =>
        dsimp only
        refine dijkFinal_of_break adj source (u :: us) visited dist pred inv ?_
        intro v hv
        have h1 := hcur_min v hv
        rw [hdc] at h1
        exact distLt_none_eq_none _ h1
      | some dc =>
        dsimp only
        set unvisited' := (u :: us).erase current with hunv
        set visited' := visited ++ [current] with hvis'
        set items := dictGetD adj current [] with hitemsdef
        have hcur_keys : current ∈ dictKeys adj := inv.unvis_sub current hcur_mem
        have hcur_not_vis : current ∉ visited := fun h => inv.disj current h hcur_mem
        have hmem_vis' : ∀ v, v ∈ visited' ↔ (v ∈ visited ∨ v = current) := by
          intro v
          rw [hvis', List.mem_append, List.mem_singleton]
        have hitems : ∀ q ∈ items, q.1 ∈ dictKeys dist ∧ q.1 ∈ dictKeys pred := by
          intro q hq
          rw [hitemsdef, dictGetD] at hq
          cases hg : dictGet? adj current with
          | none =>
            rw [hg] at hq
            simp at hq
          | some inner =>
            rw [hg] at hq
            rw [show (some inner).getD [] = inner from rfl] at hq
            obtain ⟨p, hp, hp2⟩ := dictGet?_mem hg
            have := hwf.2 p hp q (by rw [hp2]; exact hq)
            rw [inv.keys_dist, inv.keys_pred]
            exact ⟨this, this⟩
        rcases hst : relaxFold current dc visited' (dist, pred) items with ⟨d', p'⟩
        obtain ⟨r1, r2, r3, r4⟩ := relaxFold_spec current dc visited' items dist pred hitems
        rw [hst] at r1 r2 r3 r4
        dsimp only at r1 r2 r3 r4
        have hlen' : unvisited'.length ≤ fuel := by
          rw [hunv, List.length_erase_of_mem hcur_mem]
          exact Nat.le_of_succ_le_succ (by simpa using hlen)
        have hder : ∀ v ∈ unvisited', v ∈ u :: us := fun v hv => List.mem_of_mem_erase hv
        have inv' : DijkInv adj source unvisited' visited' d' p' := by
          refine ⟨r1.trans inv.keys_dist, r2.trans inv.keys_pred, ?_, ?_, ?_, ?_, ?_, ?_, ?_, ?_, ?_, ?_⟩
          · exact fun v hv => inv.unvis_sub v (hder v hv)
          · intro v hv
            rcases (hmem_vis' v).mp hv with h | h
            · exact inv.vis_sub v h
            · rw [h]; exact hcur_keys
          · exact inv.unvis_nodup.erase current
          · refine List.Nodup.append inv.vis_nodup (List.nodup_singleton _) ?_
            intro a ha hb
            rw [List.mem_singleton] at hb
            rw [hb] at ha
            exact hcur_not_vis ha
          · intro v hv
            rcases (hmem_vis' v).mp hv with h | h
            · exact fun hc => inv.disj v h (hder v hc)
            · intro hc
              rw [h] at hc
              exact absurd ((inv.unvis_nodup.mem_erase_iff).mp hc).1 (fun hne => hne rfl)
          · intro v hv
            rcases inv.cover v hv with h | h
            · by_cases hvc : v = current
              · exact Or.inr ((hmem_vis' v).mpr (Or.inr hvc))
              · exact Or.inl ((inv.unvis_nodup.mem_erase_iff).mpr ⟨hvc, h⟩)
            · exact Or.inr ((hmem_vis' v).mpr (Or.inl h))
          · intro v w hp
            rcases r4 v with ⟨e1, e2⟩ | ⟨e1, e2, e3⟩
            · rw [e2] at hp
              obtain ⟨h1, h2, h3⟩ := inv.predInv v w hp
              have hw' : w ∈ visited' := (hmem_vis' w).mpr (Or.inl h1)
              refine ⟨hw', ?_, ?_⟩
              · rw [(r3 w hw').1]; exact h2
              · rw [e1]; exact h3
            · rw [e1] at hp
              have hwc : w = current := (Option.some.inj hp).symm
              have hc' : current ∈ visited' := (hmem_vis' current).mpr (Or.inr rfl)
              refine ⟨hwc ▸ hc', ?_, e3⟩
              rw [hwc, (r3 current hc').1, hdc]
              exact fun hcon => Option.noConfusion hcon
          · intro v w hv hp
            have huntouched : dGet d' v = dGet dist v ∧ pGet p' v = pGet pred v := by
              rcases r4 v with h | ⟨_, h2, _⟩
              · exact h
              · exact absurd hv h2
            rw [huntouched.2] at hp
            obtain ⟨hw_vis, _, _⟩ := inv.predInv v w hp
            have hiw : visited'.indexOf w = visited.indexOf w := by
              rw [hvis']; exact List.indexOf_append_of_mem hw_vis
            rcases (hmem_vis' v).mp hv with h | h
            · have := inv.predRank v w h hp
              have hiv : visited'.indexOf v = visited.indexOf v := by
                rw [hvis']; exact List.indexOf_append_of_mem h
              rw [hiw, hiv]
              exact this
            · rw [h] at hp ⊢
              have hic : visited'.indexOf current = visited.length := by
                rw [hvis', List.indexOf_append_of_not_mem hcur_not_vis,
                  List.indexOf_cons_self, Nat.add_zero]
              rw [hiw, hic]
              exact List.indexOf_lt_length.mpr hw_vis
          · intro v hv hp
            have huntouched : dGet d' v = dGet dist v ∧ pGet p' v = pGet pred v := by
              rcases r4 v with h | ⟨h1, _, _⟩
              · exact h
              · rw [h1] at hp; exact absurd hp (fun hcon => Option.noConfusion hcon)
            rw [huntouched.2] at hp
            rcases (hmem_vis' v).mp hv with h | h
            · rcases inv.rootInv v h hp with hs | hn
              · exact Or.inl hs
              · right; rw [huntouched.1]; exact hn
            · subst h
              rcases inv.unvisFin current hcur_mem (by rw [hdc]; exact fun hcon => Option.noConfusion hcon) with hs | hn
              · exact Or.inl hs
              · exact absurd hp hn
          · intro v hv hd
            rcases r4 v with ⟨e1, e2⟩ | ⟨e1, _, _⟩
            · rw [e1] at hd
              rcases inv.unvisFin v (hder v hv) hd with hs | hn
              · exact Or.inl hs
              · right; rw [e2]; exact hn
            · right; rw [e1]; exact fun hcon => Option.noConfusion hcon
        exact ih unvisited' visited' d' p' hlen' inv'

theorem dictKeys_init {β : Type} (keys : List String) (x : β) :
    dictKeys (keys.map fun m => (m, x)) = keys := by
  rw [dictKeys, List.map_map, show (Prod.fst ∘ fun m : String => (m, x)) = id from rfl,
    List.map_id]

theorem dijkstra_initInv (adj : Adj) (source : String) (hwf : adjWF adj)
    (hsrc : source ∈ dictKeys adj) :
    DijkInv adj source (dictKeys adj) []
      (dictSet ((dictKeys adj).map fun m => (m, (none : Option ℚ))) source (some 0))
      ((dictKeys adj).map fun m => (m, (none : Option String))) := by
  have h0 : source ∈ dictKeys ((dictKeys adj).map fun m => (m, (none : Option ℚ))) := by
    rw [dictKeys_init]
    exact hsrc
  refine ⟨?_, dictKeys_init _ _, fun v hv => hv, fun v hv => absurd hv (List.not_mem_nil v),
    hwf.1, List.nodup_nil, fun v hv => absurd hv (List.not_mem_nil v), fun v hv => Or.inl hv,
    ?_, ?_, ?_, ?_⟩
  · rw [dictKeys_dictSet_mem _ _ _ h0, dictKeys_init]
  · intro v u hp
    rw [pGet_init] at hp
    exact Option.noConfusion hp
  · intro v u hv
    exact absurd hv (List.not_mem_nil v)
  · intro v hv
    exact absurd hv (List.not_mem_nil v)
  · intro v _ hd
    by_cases hvs : v = source
    · exact Or.inl hvs
    · exfalso
      rw [dGet_dictSet_other _ _ _ _ hvs, dGet_init] at hd
      exact hd rfl

theorem dijkstra_final (adj : Adj) (source : String) (hwf : adjWF adj)
    (hsrc : source ∈ dictKeys adj) :
    DijkFinal adj source (dijkstra adj source).1 (dijkstra adj source).2 :=
  dijkstraAux_final adj source hwf (dictKeys adj).length (dictKeys adj) []
    (dictSet ((dictKeys adj).map fun m => (m, (none : Option ℚ))) source (some 0))
    ((dictKeys adj).map fun m => (m, (none : Option String)))
    (Nat.le_refl _) (dijkstra_initInv adj source hwf hsrc)

/-- Following an acyclic (rank-decreasing) predecessor map terminates within
the given fuel and ends at a root (a node with no predecessor), which is
either the start itself or pointed to by some node. -/
theorem reconPathAux_spec (pred : PredMap) (V : List String)
    (hV : ∀ v u, pGet pred v = some u → u ∈ V ∧ (v ∈ V → V.indexOf u < V.indexOf v)) :
    ∀ (fuel : Nat) (start : String) (acc : List String),
      ((pGet pred start = none ∧ 1 ≤ fuel) ∨
        (∃ u, pGet pred start = some u ∧ V.indexOf u + 2 ≤ fuel)) →
      ∃ res r, reconPathAux pred fuel start acc = some res ∧ res.head? = some r ∧
        pGet pred r = none ∧ (r = start ∨ ∃ w, pGet pred w = some r) := by
  intro fuel
  induction fuel with
  | zero =>
    intro start acc h
    rcases h with ⟨_, h⟩ | ⟨u, _, h⟩
    · exact absurd h (by omega)
    · exact absurd h (by omega)
  | succ fuel ih =>
    intro start acc h
    rw [reconPathAux]
    cases hp : pGet pred start with
    | none =>
      refine ⟨(acc ++ [start]).reverse, start, rfl, ?_, hp, Or.inl rfl⟩
      rw [List.head?_reverse, List.getLast?_concat]
    | some u =>
      have hu := hV start u hp
      have hfu : (pGet pred u = none ∧ 1 ≤ fuel) ∨
          (∃ u', pGet pred u = some u' ∧ V.indexOf u' + 2 ≤ fuel) := by
        rcases h with ⟨hnone, _⟩ | ⟨u0, hsome, hle⟩
        · rw [hp] at hnone
          exact absurd hnone (fun hc => Option.noConfusion hc)
        · have hu0 : u0 = u := Option.some.inj (hsome.symm.trans hp)
          rw [hu0] at hle
          cases hpu : pGet pred u with
          | none => exact Or.inl ⟨rfl, by omega⟩
          | some u' =>
            have := (hV u u' hpu).2 hu.1
            exact Or.inr ⟨u', rfl, by omega⟩
      obtain ⟨res, r, h1, h2, h3, h4⟩ := ih u (acc ++ [start]) hfu
      refine ⟨res, r, h1, h2, h3, Or.inr ?_⟩
      rcases h4 with hru | ⟨w, hw⟩
      · exact ⟨start, by rw [hp, hru]⟩
      · exact ⟨w, hw⟩

/-- C10: for every well-formed adjacency map (distinct keys, every listed
neighbour itself a key of the map — the maps on which the Python loop body
runs without a KeyError) and every source key in it, following predecessors
from any key of the map reaches a predecessor-less node within the fuel
`reconstruct_path` has, i.e. the predecessor map dijkstra returns is acyclic
and `reconstruct_path` terminates with a path for every target key; and when
the target's distance is finite the reconstructed path starts at the source. -/
theorem claim_C10 (adj : Adj) (source : String) (hwf : adjWF adj)
    (hsrc : source ∈ dictKeys adj) :
    ∀ target ∈ dictKeys adj,
      ∃ path, reconstruct_path (dijkstra adj source).2 target = some path ∧
        (dGet (dijkstra adj source).1 target ≠ none → path.head? = some source) := by
  intro target htgt
  obtain ⟨hkd, hkp, V, hVnd, hVsub, F1, F2, F3⟩ := dijkstra_final adj source hwf hsrc
  have hplen : (dijkstra adj source).2.length = (dictKeys adj).length := by
    rw [← hkp, dictKeys, List.length_map]
  have hVlen : V.length ≤ (dictKeys adj).length := by
    have h1 : V.toFinset.card = V.length := List.toFinset_card_of_nodup hVnd
    have h2 : V.toFinset ⊆ (dictKeys adj).toFinset := by
      intro a ha
      rw [List.mem_toFinset] at ha ⊢
      exact hVsub a ha
    calc V.length = V.toFinset.card := h1.symm
      _ ≤ (dictKeys adj).toFinset.card := Finset.card_le_card h2
      _ ≤ (dictKeys adj).length := (dictKeys adj).toFinset_card_le
  have hV : ∀ v u, pGet (dijkstra adj source).2 v = some u →
      u ∈ V ∧ (v ∈ V → V.indexOf u < V.indexOf v) := by
    intro v u hp
    obtain ⟨h1, _, _, h4⟩ := F1 v u hp
    exact ⟨h1, h4⟩
  have hfuel : (pGet (dijkstra adj source).2 target = none ∧
        1 ≤ (dijkstra adj source).2.length + 1) ∨
      (∃ u, pGet (dijkstra adj source).2 target = some u ∧
        V.indexOf u + 2 ≤ (dijkstra adj source).2.length + 1) := by
    cases hp : pGet (dijkstra adj source).2 target with
    | none => exact Or.inl ⟨rfl, by omega⟩
    | some u =>
      have hu : u ∈ V := (F1 target u hp).1
      have hlt : V.indexOf u < V.length := List.indexOf_lt_length.mpr hu
      refine Or.inr ⟨u, rfl, ?_⟩
      rw [hplen]
      omega
  obtain ⟨res, r, h1, h2, h3, h4⟩ :=
    reconPathAux_spec (dijkstra adj source).2 V hV ((dijkstra adj source).2.length + 1)
      target [] hfuel
  refine ⟨res, h1, ?_⟩
  intro hfin
  have hrs : r = source := by
    rcases h4 with hrt | ⟨w, hw⟩
    · rw [hrt] at h3 ⊢
      have htV : target ∈ V := by
        by_contra hnV
        exact hfin (F3 target htgt hnV)
      rcases F2 target htV h3 with hs | hn
      · exact hs
      · exact absurd hn hfin
    · obtain ⟨hrV, hdr, _, _⟩ := F1 w r hw
      rcases F2 r hrV h3 with hs | hn
      · exact hs
      · exact absurd hn hdr
  rw [h2, hrs]

/-- Witness for C10 on the two-node graph A ↔ B with source A and target B. -/
theorem claim_C10_witness :
    ∃ path,
      reconstruct_path
          (dijkstra [("A", [("B", (1 : ℚ))]), ("B", [("A", (1 : ℚ))])] "A").2 "B" =
        some path ∧
      (dGet (dijkstra [("A", [("B", (1 : ℚ))]), ("B", [("A", (1 : ℚ))])] "A").1 "B" ≠ none →
        path.head? = some "A") :=
  claim_C10 [("A", [("B", (1 : ℚ))]), ("B", [("A", (1 : ℚ))])] "A"
    (by refine ⟨by with_unfolding_all decide, ?_⟩
        with_unfolding_all decide)
    (by with_unfolding_all decide) "B" (by with_unfolding_all decide)
